import Mathlib

/-!
# Job control of `nolan_shell.cpp`

A shallow embedding of the shell's global state (`jobs`, `jobNames`,
`job_counter`, `current_foreground_pid`), of its operations (`launchJob`,
`listJobs`, `handleFg`, `handleBg`, `signalHandler`) and of one iteration of the
loop in `main`, followed by the properties proved about them.

Modelling conventions.

* `std::map<int, T>` is a list of key/value pairs kept in ascending key order,
  which is the order in which a range-`for` visits the map.
* `int` and `pid_t` values are integers in the range of a 32-bit `int`.  The
  only arithmetic in the program is `job_counter++`; its result is reduced
  modulo `2^32` into that range (`toInt32`), so that at `INT_MAX` = 2147483647
  the counter wraps around to -2147483648, as it does in the compiled program
  (in C++ itself the overflow is undefined behaviour).  `std::stoi` checks the
  `int` range, and `stoi` below keeps that check.
* Everything the process does to the outside world (text written to `cout` and
  `cerr`, `fork`, `kill`, `waitpid`) and every assignment to the variable shared
  with the signal handler is appended, in program order, to `trace`.
* What the operating system answers is an input of the model: the value returned
  by `fork` and whether `execvp` succeeds in the child.
* `waitpid` is recorded as an event and returns; how long it blocks is not
  modelled.  The signals that reach the shell while it is blocked in a
  `waitpid` are an input of the model too: each runs `signalHandler` in the
  state the shell is blocked in, and, the handlers having been installed with
  `signal`, the wait is resumed afterwards.
-/

namespace NolanShell

/-! ## Data model -/

/-- The signal numbers the program mentions. -/
inductive Signal where
  | SIGINT
  | SIGTSTP
  | SIGCONT
  deriving DecidableEq, Repr

/-- One externally visible action of the shell process, or one assignment to
`current_foreground_pid`. -/
inductive Event where
  | cout (text : String)
  | cerr (text : String)
  | fork (ret : Int)
  | kill (pid : Int) (sig : Signal)
  | waitpid (pid : Int)
  | setForeground (pid : Int)
  deriving DecidableEq, Repr

/-- The four globals of lines 14-17 together with the trace of effects so far. -/
structure ShellState where
  jobs : List (Int × Int)
  jobNames : List (Int × String)
  job_counter : Int
  current_foreground_pid : Int
  trace : List Event
  deriving DecidableEq, Repr

/-- State at the start of `main`: empty maps, `job_counter = 1`,
`current_foreground_pid = -1`. -/
def initialState : ShellState :=
  { jobs := [], jobNames := [], job_counter := 1, current_foreground_pid := -1, trace := [] }

/-- How a call (or one loop iteration) ends for the process executing it. -/
inductive Outcome where
  /-- The call returned; the shell carries on with this state. -/
  | running (s : ShellState)
  /-- The process ended through `return` from `main` or `exit(code)`. -/
  | exited (code : Int) (s : ShellState)
  /-- The process is the forked child and `execvp` replaced its image. -/
  | execed (argv : List String) (s : ShellState)
  /-- An exception left `main`: `std::terminate` aborts the process. -/
  | terminated (s : ShellState)
  /-- The call has undefined behaviour (an out-of-range `operator[]`). -/
  | undefined
  deriving DecidableEq, Repr

/-! ## `std::map` operations used by the program -/

/-- Lookup without modification (`find`). -/
def mapFind {α : Type} (m : List (Int × α)) (k : Int) : Option α :=
  match m with
  | [] => none
  | (k', v) :: rest => if k' = k then some v else mapFind rest k

/-- Number of entries with key `k` (`count`). -/
def mapCount {α : Type} (m : List (Int × α)) (k : Int) : Nat :=
  (m.filter (fun e => decide (e.1 = k))).length

/-- Adds `(k, v)` at its place in key order unless `k` is present (`insert`). -/
def mapInsert {α : Type} (m : List (Int × α)) (k : Int) (v : α) : List (Int × α) :=
  match m with
  | [] => [(k, v)]
  | (k', v') :: rest =>
    if k < k' then (k, v) :: (k', v') :: rest
    else if k = k' then (k', v') :: rest
    else (k', v') :: mapInsert rest k v

/-- The map after `m[k] = v`: the entry is created or overwritten. -/
def mapAssign {α : Type} (m : List (Int × α)) (k : Int) (v : α) : List (Int × α) :=
  match m with
  | [] => [(k, v)]
  | (k', v') :: rest =>
    if k < k' then (k, v) :: (k', v') :: rest
    else if k = k' then (k', v) :: rest
    else (k', v') :: mapAssign rest k v

/-- Reading `m[k]`: a missing key is first inserted with the value-initialised
`dflt`; returns the value read and the map afterwards. -/
def mapSubscript {α : Type} (m : List (Int × α)) (k : Int) (dflt : α) : α × List (Int × α) :=
  ((mapFind m k).getD dflt, mapInsert m k dflt)

/-- The map after `m.erase(k)`. -/
def mapErase {α : Type} (m : List (Int × α)) (k : Int) : List (Int × α) :=
  match m with
  | [] => []
  | (k', v) :: rest => if k' = k then mapErase rest k else (k', v) :: mapErase rest k

/-- Keys in iteration order. -/
def mapKeys {α : Type} (m : List (Int × α)) : List Int :=
  m.map Prod.fst

/-! ## Effects -/

/-- Appends one event to the trace. -/
def emit (e : Event) (s : ShellState) : ShellState :=
  { s with trace := s.trace ++ [e] }

/-- Assignment `current_foreground_pid = pid`. -/
def setForeground (pid : Int) (s : ShellState) : ShellState :=
  { s with current_foreground_pid := pid, trace := s.trace ++ [Event.setForeground pid] }

/-! ## Operations -/

/-- Text of the confirmation printed at line 89. -/
def startedLine (id : Int) (name : String) : String :=
  "Job [" ++ toString id ++ "] started in background: " ++ name ++ "\n"

/-- Text of one listing line printed at line 116. -/
def jobLine (id : Int) (name : String) (pid : Int) : String :=
  "[" ++ toString id ++ "] " ++ name ++ " (PID: " ++ toString pid ++ ")\n"

/-- Text printed at line 122. -/
def fgLine (id : Int) (name : String) : String :=
  "Bringing job [" ++ toString id ++ "] to the foreground: " ++ name ++ "\n"

/-- Text printed at line 136. -/
def bgLine (id : Int) (name : String) : String :=
  "Running job [" ++ toString id ++ "] in the background: " ++ name ++ "\n"

/-- Text printed by the handler for `SIGINT` (line 104). -/
def interruptNotice : String :=
  "\nInterrupt signal received (Ctrl+C). Stopping foreground job.\n"

/-- Text printed by the handler for `SIGTSTP` (line 107). -/
def stopNotice : String :=
  "\nStop signal received (Ctrl+Z). Suspending foreground job.\n"

/-- `signalHandler(signum)` (lines 101-111). -/
def signalHandler (signum : Signal) (s : ShellState) : ShellState :=
  if 0 < s.current_foreground_pid then
    if signum = Signal.SIGINT then
      emit (Event.kill s.current_foreground_pid Signal.SIGINT) (emit (Event.cout interruptNotice) s)
    else if signum = Signal.SIGTSTP then
      emit (Event.kill s.current_foreground_pid Signal.SIGTSTP) (emit (Event.cout stopNotice) s)
    else s
  else s

/-- `waitpid(pid, nullptr, 0)`.  The signals of `during` reach the shell while
it is blocked in the call; each is handled by `signalHandler` in the state of
that moment, after which the wait goes on.  (The handler is installed for
`SIGINT` and `SIGTSTP`; for any other signal number its body does nothing.) -/
def waitpid (pid : Int) (during : List Signal) (s : ShellState) : ShellState :=
  during.foldl (fun st signum => signalHandler signum st) (emit (Event.waitpid pid) s)

/-- The `int` that holds the arithmetic result `x`: `x` reduced modulo `2^32`
into the range from -2147483648 to 2147483647. -/
def toInt32 (x : Int) : Int :=
  (x + 2147483648) % 4294967296 - 2147483648

/-- `arg.c_str()` as `execvp` reads it: the characters before the first NUL. -/
def c_str (arg : String) : String :=
  String.mk (arg.data.takeWhile (fun c => c.toNat ≠ 0))

/-- `launchJob(args, inBackground)` (lines 72-99).  `forkRet` is what `fork()`
returns in the process being followed, `execOk` whether `execvp` succeeds in
the child, and `during` the signals that arrive during the wait for a
foreground child. -/
def launchJob (args : List String) (inBackground : Bool) (forkRet : Int) (execOk : Bool)
    (during : List Signal) (s : ShellState) : Outcome :=
  let s := emit (Event.fork forkRet) s
  if forkRet = 0 then
    -- child: `execArgs[0]` is the first argument, or `nullptr` when `args` is empty
    match args with
    | [] => Outcome.undefined
    | _ :: _ =>
      if execOk then Outcome.execed (args.map c_str) s
      else Outcome.exited 1 (emit (Event.cerr "Error: command not found\n") s)
  else if 0 < forkRet then
    if inBackground then
      let s := { s with jobs := mapAssign s.jobs s.job_counter forkRet }
      match args with
      | [] => Outcome.undefined
      | name :: _ =>
        let s := { s with jobNames := mapAssign s.jobNames s.job_counter name }
        let s := emit (Event.cout (startedLine s.job_counter name)) s
        Outcome.running { s with job_counter := toInt32 (s.job_counter + 1) }
    else
      let s := setForeground forkRet s
      let s := waitpid forkRet during s
      Outcome.running (setForeground (-1) s)
  else
    Outcome.running (emit (Event.cerr "Fork failed.\n") s)

/-- Body of the loop at lines 115-117 over the entries still to visit. -/
def listJobsLoop (entries : List (Int × Int)) (s : ShellState) : ShellState :=
  match entries with
  | [] => s
  | (id, pid) :: rest =>
    let r := mapSubscript s.jobNames id ""
    let s := { s with jobNames := r.2 }
    listJobsLoop rest (emit (Event.cout (jobLine id r.1 pid)) s)

/-- `listJobs()` (lines 113-118). -/
def listJobs (s : ShellState) : ShellState :=
  listJobsLoop s.jobs (emit (Event.cout "Current jobs:\n") s)

/-- `handleFg(jobID)` (lines 120-132); `during` are the signals that arrive
during the wait. -/
def handleFg (jobID : Int) (during : List Signal) (s : ShellState) : ShellState :=
  if mapCount s.jobs jobID ≠ 0 then
    let n := mapSubscript s.jobNames jobID ""
    let s := emit (Event.cout (fgLine jobID n.1)) { s with jobNames := n.2 }
    let p := mapSubscript s.jobs jobID 0
    let s := setForeground p.1 { s with jobs := p.2 }
    let p := mapSubscript s.jobs jobID 0
    let s := emit (Event.kill p.1 Signal.SIGCONT) { s with jobs := p.2 }
    let p := mapSubscript s.jobs jobID 0
    let s := waitpid p.1 during { s with jobs := p.2 }
    let s := { s with jobs := mapErase s.jobs jobID }
    let s := { s with jobNames := mapErase s.jobNames jobID }
    setForeground (-1) s
  else
    emit (Event.cerr "Job ID not found.\n") s

/-- `handleBg(jobID)` (lines 134-141). -/
def handleBg (jobID : Int) (s : ShellState) : ShellState :=
  if mapCount s.jobs jobID ≠ 0 then
    let n := mapSubscript s.jobNames jobID ""
    let s := emit (Event.cout (bgLine jobID n.1)) { s with jobNames := n.2 }
    let p := mapSubscript s.jobs jobID 0
    emit (Event.kill p.1 Signal.SIGCONT) { s with jobs := p.2 }
  else
    emit (Event.cerr "Job ID not found.\n") s

/-! ## The command loop of `main` -/

/-- `isspace` in the "C" locale: the space and the characters 9 to 13. -/
def isspace (c : Char) : Bool :=
  c.toNat = 32 || (9 ≤ c.toNat && c.toNat ≤ 13)

/-- The extraction loop of `parseCommand`: `cur` is the word being read. -/
def splitWords (cs : List Char) (cur : List Char) : List (List Char) :=
  match cs with
  | [] => if cur.isEmpty then [] else [cur]
  | c :: rest =>
    if isspace c then
      if cur.isEmpty then splitWords rest [] else cur :: splitWords rest []
    else splitWords rest (cur ++ [c])

/-- `parseCommand(input, args)` (lines 64-70) on an empty `args`: the
whitespace-separated words of the line. -/
def parseCommand (input : String) : List String :=
  (splitWords input.data []).map String.mk

/-- Result of `std::stoi`: a value, or the exception it throws. -/
inductive StoiResult where
  | ok (n : Int)
  | invalid_argument
  | out_of_range
  deriving DecidableEq, Repr

/-- Value of a string of decimal digits. -/
def digitsValue (ds : List Char) : Nat :=
  ds.foldl (fun acc c => 10 * acc + (c.toNat - 48)) 0

/-- `std::stoi(str)` in base 10: leading whitespace, an optional sign, then the
longest run of digits; no digit is `invalid_argument`, a value outside the range
of `int` is `out_of_range`; what follows the digits is ignored. -/
def stoi (str : String) : StoiResult :=
  let cs := str.data.dropWhile isspace
  let neg := cs.head? = some '-'
  let cs := if cs.head? = some '-' || cs.head? = some '+' then cs.tail else cs
  let ds := cs.takeWhile Char.isDigit
  if ds.isEmpty then StoiResult.invalid_argument
  else
    let n : Int := if neg then -(digitsValue ds : Int) else (digitsValue ds : Int)
    if n < -2147483648 || 2147483647 < n then StoiResult.out_of_range
    else StoiResult.ok n

/-- The job-control call of `fg`/`bg`: `handler(stoi(args[1]))` (lines 47, 51). -/
def callWithJobId (handler : Int → ShellState → ShellState) (args : List String)
    (s : ShellState) : Outcome :=
  match args[1]? with
  | none => Outcome.undefined
  | some word =>
    match stoi word with
    | StoiResult.ok n => Outcome.running (handler n s)
    | StoiResult.invalid_argument => Outcome.terminated s
    | StoiResult.out_of_range => Outcome.terminated s

/-- One iteration of the loop of `main` (lines 33-58) on the line `input`;
`Outcome.running` means that the loop goes round again.  `forkRet`, `execOk`
and `during` are passed on to the operation the line selects. -/
def mainStep (input : String) (forkRet : Int) (execOk : Bool) (during : List Signal)
    (s : ShellState) : Outcome :=
  let s := emit (Event.cout "shell> ") s
  let args := parseCommand input
  match args with
  | [] => Outcome.running s
  | first :: _ =>
    if first = "exit" then Outcome.exited 0 s
    else if first = "jobs" then Outcome.running (listJobs s)
    else if first = "fg" then callWithJobId (fun jobID => handleFg jobID during) args s
    else if first = "bg" then callWithJobId handleBg args s
    else
      let inBackground := decide (args.getLast? = some "&")
      let args := if inBackground then args.dropLast else args
      launchJob args inBackground forkRet execOk during s

/-! ## Sequences of operations -/

/-- What the shell process can do between two reads of a line, and the delivery
of a signal to it. -/
inductive Op where
  | prompt
  | launch (args : List String) (inBackground : Bool) (forkRet : Int) (execOk : Bool)
      (during : List Signal)
  | jobs
  | fg (jobID : Int) (during : List Signal)
  | bg (jobID : Int)
  | signal (signum : Signal)
  deriving DecidableEq, Repr

/-- Effect of one operation. -/
def applyOp (op : Op) (s : ShellState) : Outcome :=
  match op with
  | Op.prompt => Outcome.running (emit (Event.cout "shell> ") s)
  | Op.launch args inBackground forkRet execOk during =>
    launchJob args inBackground forkRet execOk during s
  | Op.jobs => Outcome.running (listJobs s)
  | Op.fg jobID during => Outcome.running (handleFg jobID during s)
  | Op.bg jobID => Outcome.running (handleBg jobID s)
  | Op.signal signum => Outcome.running (signalHandler signum s)

/-- Runs the operations in order; `none` as soon as one of them does not return
to the shell. -/
def runOps (s : ShellState) (ops : List Op) : Option ShellState :=
  match ops with
  | [] => some s
  | op :: rest =>
    match applyOp op s with
    | Outcome.running s' => runOps s' rest
    | _ => none

/-- States the shell can be in between two operations of a session. -/
def Reachable (s : ShellState) : Prop :=
  ∃ ops : List Op, runOps initialState ops = some s

/-- A background dispatch whose `fork` succeeded in the shell. -/
def Op.isBackgroundStart (op : Op) : Bool :=
  match op with
  | Op.launch _ inBackground forkRet _ _ => inBackground && decide (0 < forkRet)
  | _ => false

/-- Number of background dispatches with a successful `fork` among `ops`. -/
def countStarted (ops : List Op) : Nat :=
  (ops.filter Op.isBackgroundStart).length

/-! ## Views and invariant -/

/-- The job table as records `(id, displayName, process handle)`, in the order
in which `jobs` is traversed. -/
def jobTable (s : ShellState) : List (Int × String × Int) :=
  s.jobs.map (fun e => (e.1, (mapFind s.jobNames e.1).getD "", e.2))

/-- The `cout` event of one listing line. -/
def listingEvent (j : Int × String × Int) : Event :=
  Event.cout (jobLine j.1 j.2.1 j.2.2)

/-- What `signalHandler signum` adds to the trace when `current_foreground_pid`
is `owner`. -/
def handlerEvents (owner : Int) (signum : Signal) : List Event :=
  if 0 < owner then
    if signum = Signal.SIGINT then
      [Event.cout interruptNotice, Event.kill owner Signal.SIGINT]
    else if signum = Signal.SIGTSTP then
      [Event.cout stopNotice, Event.kill owner Signal.SIGTSTP]
    else []
  else []

/-- The notification the handler prints for a signal it forwards. -/
def noticeOf (signum : Signal) : String :=
  if signum = Signal.SIGINT then interruptNotice else stopNotice

/-- Representation invariant of the globals between two operations. -/
structure Inv (s : ShellState) : Prop where
  sorted : (mapKeys s.jobs).Pairwise (fun a b => a < b)
  names : mapKeys s.jobNames = mapKeys s.jobs
  owner : s.current_foreground_pid = -1
  pids : ∀ e ∈ s.jobs, 0 < e.2

/-- What holds in addition as long as `job_counter` has not wrapped around: the
counter is a positive `int` and every id in use is positive and below it. -/
structure Sequential (s : ShellState) : Prop where
  bound : ∀ k ∈ mapKeys s.jobs, 1 ≤ k ∧ k < s.job_counter
  counter : 1 ≤ s.job_counter
  limit : s.job_counter ≤ 2147483647

/-! ## A sample session -/

/-- Two background jobs are started, then job 1 is brought to the foreground. -/
def sessionOps : List Op :=
  [Op.launch ["sleep", "100"] true 4242 true [], Op.launch ["make"] true 4250 false [],
   Op.fg 1 []]

/-- The state the sample session ends in. -/
def sessionState : ShellState :=
  { jobs := [(2, 4250)],
    jobNames := [(2, "make")],
    job_counter := 3,
    current_foreground_pid := -1,
    trace :=
      [Event.fork 4242, Event.cout "Job [1] started in background: sleep\n",
       Event.fork 4250, Event.cout "Job [2] started in background: make\n",
       Event.cout "Bringing job [1] to the foreground: sleep\n",
       Event.setForeground 4242, Event.kill 4242 Signal.SIGCONT,
       Event.waitpid 4242, Event.setForeground (-1)] }

/-- A background dispatch whose `fork` returns `pid` in the shell. -/
structure Dispatch where
  name : String
  rest : List String
  pid : Int
  execOk : Bool
  deriving DecidableEq, Repr

/-- The operation of a background dispatch. -/
def Dispatch.op (d : Dispatch) : Op :=
  Op.launch (d.name :: d.rest) true d.pid d.execOk []

/-- The operations of a list of background dispatches. -/
def backgroundOps (ds : List Dispatch) : List Op :=
  ds.map Dispatch.op

/-- The records `(i, name, pid)` of the dispatches, numbered from 1. -/
def numbered (ds : List Dispatch) : List (Int × String × Int) :=
  (ds.enumFrom 1).map (fun p => ((p.1 : Int), p.2.name, p.2.pid))

/-- Three background dispatches. -/
def sampleDispatches : List Dispatch :=
  [⟨"sleep", ["100"], 4242, true⟩, ⟨"make", [], 4250, true⟩, ⟨"nosuchprogram", [], 4251, false⟩]

/-- The first two operations of the sample session. -/
def twoJobsOps : List Op :=
  [Op.launch ["sleep", "100"] true 4242 true [], Op.launch ["make"] true 4250 false []]

/-- The state after `twoJobsOps`. -/
def twoJobsState : ShellState :=
  { jobs := [(1, 4242), (2, 4250)],
    jobNames := [(1, "sleep"), (2, "make")],
    job_counter := 3,
    current_foreground_pid := -1,
    trace :=
      [Event.fork 4242, Event.cout "Job [1] started in background: sleep\n",
       Event.fork 4250, Event.cout "Job [2] started in background: make\n"] }

/-- The state in which a foreground `launchJob` waits for the child 4242. -/
def waitingState : ShellState :=
  waitpid 4242 [] (setForeground 4242 (emit (Event.fork 4242) initialState))

/-! ## Lemmas on the map operations -/

theorem mapCount_ne_zero_iff {α : Type} (m : List (Int × α)) (k : Int) :
    mapCount m k ≠ 0 ↔ k ∈ mapKeys m := by
  induction m with
  | nil => simp [mapCount, mapKeys]
  | cons e rest ih =>
    simp only [mapCount, mapKeys] at ih ⊢
    by_cases h : e.1 = k
    · simp [List.filter_cons, h]
    · have h2 : ¬ k = e.1 := fun h3 => h h3.symm
      simp [List.filter_cons, h, h2]

theorem mapCount_eq_zero_iff {α : Type} (m : List (Int × α)) (k : Int) :
    mapCount m k = 0 ↔ k ∉ mapKeys m := by
  rw [← mapCount_ne_zero_iff]; simp

theorem mapFind_eq_none_iff {α : Type} (m : List (Int × α)) (k : Int) :
    mapFind m k = none ↔ k ∉ mapKeys m := by
  induction m with
  | nil => simp [mapFind, mapKeys]
  | cons e rest ih =>
    obtain ⟨k', v⟩ := e
    simp only [mapKeys] at ih
    by_cases h : k' = k
    · simp [mapFind, mapKeys, h]
    · have h2 : ¬ k = k' := fun h3 => h h3.symm
      simp [mapFind, mapKeys, h, h2]
      simpa using ih

theorem mapFind_of_mem_keys {α : Type} (m : List (Int × α)) (k : Int) (h : k ∈ mapKeys m) :
    ∃ v, mapFind m k = some v := by
  cases hf : mapFind m k with
  | none => exact absurd h ((mapFind_eq_none_iff m k).1 hf)
  | some v => exact ⟨v, rfl⟩

theorem mem_keys_of_mapFind {α : Type} (m : List (Int × α)) (k : Int) (v : α)
    (h : mapFind m k = some v) : k ∈ mapKeys m := by
  by_contra hk
  rw [(mapFind_eq_none_iff m k).2 hk] at h
  cases h

theorem mem_of_mapFind {α : Type} (m : List (Int × α)) (k : Int) (v : α)
    (h : mapFind m k = some v) : (k, v) ∈ m := by
  induction m with
  | nil => simp [mapFind] at h
  | cons e rest ih =>
    obtain ⟨k', v'⟩ := e
    by_cases hk : k' = k
    · simp [mapFind, hk] at h
      simp [hk, h]
    · simp [mapFind, hk] at h
      exact List.mem_cons_of_mem _ (ih h)

theorem mapAssign_of_lt {α : Type} (m : List (Int × α)) (k : Int) (v : α)
    (h : ∀ k' ∈ mapKeys m, k' < k) : mapAssign m k v = m ++ [(k, v)] := by
  induction m with
  | nil => rfl
  | cons e rest ih =>
    obtain ⟨k', v'⟩ := e
    have h1 : k' < k := h k' (by simp [mapKeys])
    have h2 : ¬ k < k' := by omega
    have h3 : ¬ k = k' := by omega
    have h4 : ∀ a ∈ mapKeys rest, a < k := fun a ha => h a (by
      simp only [mapKeys, List.map_cons, List.mem_cons] at ha ⊢
      exact Or.inr ha)
    simp [mapAssign, h2, h3, ih h4]

theorem mapInsert_of_mem {α : Type} (m : List (Int × α)) (k : Int) (d : α)
    (hs : (mapKeys m).Pairwise (fun a b => a < b)) (hk : k ∈ mapKeys m) :
    mapInsert m k d = m := by
  induction m with
  | nil => simp [mapKeys] at hk
  | cons e rest ih =>
    obtain ⟨k', v'⟩ := e
    simp only [mapKeys, List.map_cons, List.pairwise_cons, List.mem_cons] at hs hk
    by_cases h : k = k'
    · simp [mapInsert, h]
    · have hk2 : k ∈ mapKeys rest := by
        rcases hk with hk | hk
        · exact absurd hk h
        · exact hk
      have h1 : k' < k := hs.1 k hk2
      have h2 : ¬ k < k' := by omega
      simp [mapInsert, h, h2, ih hs.2 hk2]

theorem mapSubscript_of_find {α : Type} (m : List (Int × α)) (k : Int) (d v : α)
    (hs : (mapKeys m).Pairwise (fun a b => a < b)) (hf : mapFind m k = some v) :
    mapSubscript m k d = (v, m) := by
  simp [mapSubscript, hf, mapInsert_of_mem m k d hs (mem_keys_of_mapFind m k v hf)]

theorem mapKeys_erase {α : Type} (m : List (Int × α)) (k : Int) :
    mapKeys (mapErase m k) = (mapKeys m).filter (fun a => !decide (a = k)) := by
  induction m with
  | nil => rfl
  | cons e rest ih =>
    obtain ⟨a, v⟩ := e
    simp only [mapKeys] at ih
    by_cases h : a = k
    · simp [mapErase, mapKeys, List.filter_cons, h, ih]
    · simp [mapErase, mapKeys, List.filter_cons, h, ih]

theorem mapCount_erase_self {α : Type} (m : List (Int × α)) (k : Int) :
    mapCount (mapErase m k) k = 0 := by
  rw [mapCount_eq_zero_iff, mapKeys_erase]
  simp

theorem mapFind_erase_ne {α : Type} (m : List (Int × α)) (k k' : Int) (h : k' ≠ k) :
    mapFind (mapErase m k) k' = mapFind m k' := by
  induction m with
  | nil => rfl
  | cons e rest ih =>
    obtain ⟨a, v⟩ := e
    by_cases ha : a = k
    · have hb : ¬ a = k' := fun h3 => h (h3.symm.trans ha)
      simp only [mapErase, ha, if_true, mapFind]
      rw [ih, if_neg (by rw [← ha]; exact hb)]
    · by_cases hb : a = k'
      · subst hb
        simp [mapErase, ha, mapFind]
      · simp [mapErase, ha, mapFind, hb, ih]

theorem mapFind_append_new {α : Type} (m : List (Int × α)) (k : Int) (v : α)
    (h : k ∉ mapKeys m) : mapFind (m ++ [(k, v)]) k = some v := by
  induction m with
  | nil => simp [mapFind]
  | cons e rest ih =>
    obtain ⟨a, w⟩ := e
    simp only [mapKeys, List.map_cons, List.mem_cons, not_or] at h
    have ha : ¬ a = k := fun h3 => h.1 h3.symm
    simp only [List.cons_append, mapFind, ha, if_false]
    exact ih h.2

theorem mapFind_append_old {α : Type} (m : List (Int × α)) (k k' : Int) (v : α)
    (h : k' ≠ k) : mapFind (m ++ [(k, v)]) k' = mapFind m k' := by
  induction m with
  | nil =>
    have : ¬ k = k' := fun h3 => h h3.symm
    simp [mapFind, this]
  | cons e rest ih =>
    obtain ⟨a, w⟩ := e
    by_cases ha : a = k'
    · simp [mapFind, ha]
    · simp [mapFind, ha, ih]

theorem mem_keys_mapAssign {α : Type} (m : List (Int × α)) (k : Int) (v : α) (a : Int) :
    a ∈ mapKeys (mapAssign m k v) ↔ a = k ∨ a ∈ mapKeys m := by
  induction m with
  | nil => simp [mapAssign, mapKeys]
  | cons e rest ih =>
    obtain ⟨k', v'⟩ := e
    simp only [mapKeys] at ih
    by_cases h1 : k < k'
    · simp [mapAssign, mapKeys, h1]
    · by_cases h2 : k = k'
      · subst h2
        simp [mapAssign, mapKeys]
      · simp only [mapAssign, h1, h2, if_false, mapKeys, List.map_cons, List.mem_cons, ih]
        tauto

theorem mapAssign_sorted {α : Type} (m : List (Int × α)) (k : Int) (v : α)
    (hs : (mapKeys m).Pairwise (fun a b => a < b)) :
    (mapKeys (mapAssign m k v)).Pairwise (fun a b => a < b) := by
  induction m with
  | nil => simp [mapAssign, mapKeys]
  | cons e rest ih =>
    obtain ⟨k', v'⟩ := e
    have hs2 := hs
    simp only [mapKeys, List.map_cons, List.pairwise_cons] at hs2
    by_cases h1 : k < k'
    · simp only [mapAssign, h1, if_true, mapKeys, List.map_cons, List.pairwise_cons]
      refine ⟨?_, hs2⟩
      intro a ha
      simp only [List.mem_cons] at ha
      rcases ha with ha | ha
      · omega
      · have := hs2.1 a ha
        omega
    · by_cases h2 : k = k'
      · subst h2
        simpa [mapAssign, mapKeys] using hs2
      · simp only [mapAssign, h1, h2, if_false, mapKeys, List.map_cons, List.pairwise_cons]
        refine ⟨?_, ih hs2.2⟩
        intro a ha
        have ha2 : a ∈ mapKeys (mapAssign rest k v) := ha
        rw [mem_keys_mapAssign] at ha2
        rcases ha2 with ha2 | ha2
        · omega
        · exact hs2.1 a ha2

theorem mapAssign_keys_congr {α β : Type} (m : List (Int × α)) (m' : List (Int × β))
    (k : Int) (v : α) (v' : β) (h : mapKeys m = mapKeys m') :
    mapKeys (mapAssign m k v) = mapKeys (mapAssign m' k v') := by
  induction m generalizing m' with
  | nil =>
    cases m' with
    | nil => simp [mapAssign, mapKeys]
    | cons e' rest' => simp [mapKeys] at h
  | cons e rest ih =>
    cases m' with
    | nil => simp [mapKeys] at h
    | cons e' rest' =>
      obtain ⟨a, w⟩ := e
      obtain ⟨a', w'⟩ := e'
      simp only [mapKeys, List.map_cons, List.cons.injEq] at h
      obtain ⟨h1, h2⟩ := h
      subst h1
      have ih2 := ih rest' h2
      simp only [mapKeys] at ih2
      by_cases hlt : k < a
      · simp [mapAssign, mapKeys, hlt, h2]
      · by_cases heq : k = a
        · simp [mapAssign, mapKeys, heq, h2]
        · simp [mapAssign, mapKeys, hlt, heq, ih2]

theorem mem_mapAssign {α : Type} (m : List (Int × α)) (k : Int) (v : α) (e : Int × α)
    (h : e ∈ mapAssign m k v) : e = (k, v) ∨ e ∈ m := by
  induction m with
  | nil => simpa [mapAssign] using h
  | cons x rest ih =>
    obtain ⟨k', v'⟩ := x
    by_cases h1 : k < k'
    · simp only [mapAssign, h1, if_true, List.mem_cons] at h
      simp only [List.mem_cons]
      tauto
    · by_cases h2 : k = k'
      · subst h2
        simp only [mapAssign, lt_self_iff_false, if_false, if_true, List.mem_cons] at h
        simp only [List.mem_cons]
        tauto
      · simp only [mapAssign, h1, h2, if_false, List.mem_cons] at h
        simp only [List.mem_cons]
        rcases h with h | h
        · exact Or.inr (Or.inl h)
        · rcases ih h with h3 | h3
          · exact Or.inl h3
          · exact Or.inr (Or.inr h3)

theorem toInt32_of_range (x : Int) (h1 : -2147483648 ≤ x) (h2 : x ≤ 2147483647) :
    toInt32 x = x := by
  unfold toInt32
  omega

/-! ## The operations on states satisfying the invariant -/

theorem Inv.namesSorted {s : ShellState} (hI : Inv s) :
    (mapKeys s.jobNames).Pairwise (fun a b => a < b) := by
  rw [hI.names]; exact hI.sorted

theorem Inv.find_both {s : ShellState} (hI : Inv s) (jobID : Int)
    (h : mapCount s.jobs jobID ≠ 0) :
    ∃ pid name, mapFind s.jobs jobID = some pid ∧ mapFind s.jobNames jobID = some name := by
  have hk : jobID ∈ mapKeys s.jobs := (mapCount_ne_zero_iff _ _).1 h
  obtain ⟨pid, hp⟩ := mapFind_of_mem_keys s.jobs jobID hk
  obtain ⟨name, hn⟩ := mapFind_of_mem_keys s.jobNames jobID (by rw [hI.names]; exact hk)
  exact ⟨pid, name, hp, hn⟩

theorem signalHandler_idle (s : ShellState) (signum : Signal)
    (h : s.current_foreground_pid ≤ 0) : signalHandler signum s = s := by
  have h1 : ¬ 0 < s.current_foreground_pid := by omega
  simp [signalHandler, h1]

theorem signalHandler_eq (s : ShellState) (signum : Signal) :
    signalHandler signum s =
      { s with trace := s.trace ++ handlerEvents s.current_foreground_pid signum } := by
  by_cases hp : 0 < s.current_foreground_pid
  · cases signum <;> simp [signalHandler, handlerEvents, hp, emit]
  · simp [signalHandler, handlerEvents, hp]

theorem signals_eq (during : List Signal) (s : ShellState) :
    during.foldl (fun st signum => signalHandler signum st) s =
      { s with trace := s.trace ++
          during.flatMap (handlerEvents s.current_foreground_pid) } := by
  induction during generalizing s with
  | nil => simp
  | cons signum rest ih =>
    rw [List.foldl_cons, ih, signalHandler_eq]
    simp [List.flatMap_cons]

theorem waitpid_eq (pid : Int) (during : List Signal) (s : ShellState) :
    waitpid pid during s =
      { s with trace := s.trace ++ Event.waitpid pid ::
          during.flatMap (handlerEvents s.current_foreground_pid) } := by
  rw [waitpid, signals_eq]
  simp [emit]

theorem handleFg_absent (s : ShellState) (jobID : Int) (during : List Signal)
    (h : mapCount s.jobs jobID = 0) :
    handleFg jobID during s = emit (Event.cerr "Job ID not found.\n") s := by
  simp [handleFg, h]

theorem handleBg_absent (s : ShellState) (jobID : Int) (h : mapCount s.jobs jobID = 0) :
    handleBg jobID s = emit (Event.cerr "Job ID not found.\n") s := by
  simp [handleBg, h]

theorem handleFg_present (s : ShellState) (hI : Inv s) (jobID pid : Int) (name : String)
    (during : List Signal)
    (hj : mapFind s.jobs jobID = some pid) (hn : mapFind s.jobNames jobID = some name) :
    handleFg jobID during s =
      { jobs := mapErase s.jobs jobID, jobNames := mapErase s.jobNames jobID,
        job_counter := s.job_counter, current_foreground_pid := -1,
        trace := s.trace ++ [Event.cout (fgLine jobID name), Event.setForeground pid,
          Event.kill pid Signal.SIGCONT, Event.waitpid pid] ++
          during.flatMap (handlerEvents pid) ++ [Event.setForeground (-1)] } := by
  have hc : mapCount s.jobs jobID ≠ 0 :=
    (mapCount_ne_zero_iff _ _).2 (mem_keys_of_mapFind _ _ _ hj)
  have h1 := mapSubscript_of_find s.jobs jobID 0 pid hI.sorted hj
  have h2 := mapSubscript_of_find s.jobNames jobID "" name hI.namesSorted hn
  simp [handleFg, hc, emit, setForeground, h1, h2, waitpid_eq]

theorem handleBg_present (s : ShellState) (hI : Inv s) (jobID pid : Int) (name : String)
    (hj : mapFind s.jobs jobID = some pid) (hn : mapFind s.jobNames jobID = some name) :
    handleBg jobID s =
      { s with trace := s.trace ++ [Event.cout (bgLine jobID name),
          Event.kill pid Signal.SIGCONT] } := by
  have hc : mapCount s.jobs jobID ≠ 0 :=
    (mapCount_ne_zero_iff _ _).2 (mem_keys_of_mapFind _ _ _ hj)
  have h1 := mapSubscript_of_find s.jobs jobID 0 pid hI.sorted hj
  have h2 := mapSubscript_of_find s.jobNames jobID "" name hI.namesSorted hn
  simp [handleBg, hc, emit, h1, h2]

theorem listJobsLoop_eq (entries : List (Int × Int)) (s : ShellState)
    (hs : (mapKeys s.jobNames).Pairwise (fun a b => a < b))
    (hk : ∀ e ∈ entries, e.1 ∈ mapKeys s.jobNames) :
    listJobsLoop entries s =
      { s with trace := s.trace ++ entries.map (fun e =>
          Event.cout (jobLine e.1 ((mapFind s.jobNames e.1).getD "") e.2)) } := by
  induction entries generalizing s with
  | nil => simp [listJobsLoop]
  | cons e rest ih =>
    obtain ⟨id, pid⟩ := e
    have hid : id ∈ mapKeys s.jobNames := hk (id, pid) (by simp)
    have hins : mapInsert s.jobNames id "" = s.jobNames := mapInsert_of_mem _ _ _ hs hid
    have hrest : ∀ e ∈ rest, e.1 ∈ mapKeys s.jobNames :=
      fun e he => hk e (List.mem_cons_of_mem _ he)
    simp only [listJobsLoop, mapSubscript, hins]
    rw [ih]
    · simp [emit]
    · exact hs
    · exact hrest

theorem listJobs_eq (s : ShellState) (hI : Inv s) :
    listJobs s =
      { s with trace := s.trace ++
          Event.cout "Current jobs:\n" :: (jobTable s).map listingEvent } := by
  have hk : ∀ e ∈ s.jobs, e.1 ∈ mapKeys s.jobNames := by
    intro e he
    rw [hI.names]
    exact List.mem_map_of_mem Prod.fst he
  rw [listJobs, listJobsLoop_eq s.jobs (emit (Event.cout "Current jobs:\n") s)
    hI.namesSorted hk]
  simp [emit, jobTable, listingEvent, List.map_map, Function.comp_def]

theorem launchJob_background_any (s : ShellState) (name : String)
    (rest : List String) (pid : Int) (execOk : Bool) (during : List Signal) (hp : 0 < pid) :
    launchJob (name :: rest) true pid execOk during s =
      Outcome.running
        { jobs := mapAssign s.jobs s.job_counter pid,
          jobNames := mapAssign s.jobNames s.job_counter name,
          job_counter := toInt32 (s.job_counter + 1),
          current_foreground_pid := s.current_foreground_pid,
          trace := s.trace ++ [Event.fork pid, Event.cout (startedLine s.job_counter name)] } := by
  have h0 : ¬ pid = 0 := by omega
  simp [launchJob, h0, hp, emit]

theorem launchJob_background (s : ShellState) (hI : Inv s) (hS : Sequential s) (name : String)
    (rest : List String) (pid : Int) (execOk : Bool) (during : List Signal) (hp : 0 < pid) :
    launchJob (name :: rest) true pid execOk during s =
      Outcome.running
        { jobs := s.jobs ++ [(s.job_counter, pid)],
          jobNames := s.jobNames ++ [(s.job_counter, name)],
          job_counter := toInt32 (s.job_counter + 1),
          current_foreground_pid := s.current_foreground_pid,
          trace := s.trace ++ [Event.fork pid, Event.cout (startedLine s.job_counter name)] } := by
  have h1 : mapAssign s.jobs s.job_counter pid = s.jobs ++ [(s.job_counter, pid)] :=
    mapAssign_of_lt _ _ _ (fun k hk => (hS.bound k hk).2)
  have h2 : mapAssign s.jobNames s.job_counter name = s.jobNames ++ [(s.job_counter, name)] :=
    mapAssign_of_lt _ _ _ (fun k hk => (hS.bound k (by rw [← hI.names]; exact hk)).2)
  rw [launchJob_background_any s name rest pid execOk during hp, h1, h2]

theorem launchJob_foreground (s : ShellState) (args : List String) (pid : Int)
    (execOk : Bool) (during : List Signal) (hp : 0 < pid) :
    launchJob args false pid execOk during s =
      Outcome.running
        { s with current_foreground_pid := -1,
                 trace := s.trace ++ [Event.fork pid, Event.setForeground pid,
                   Event.waitpid pid] ++ during.flatMap (handlerEvents pid) ++
                   [Event.setForeground (-1)] } := by
  have h0 : ¬ pid = 0 := by omega
  simp [launchJob, h0, hp, emit, setForeground, waitpid_eq]

theorem launchJob_forkFailed (s : ShellState) (args : List String) (inBackground : Bool)
    (ret : Int) (execOk : Bool) (during : List Signal) (hp : ret < 0) :
    launchJob args inBackground ret execOk during s =
      Outcome.running
        { s with trace := s.trace ++ [Event.fork ret, Event.cerr "Fork failed.\n"] } := by
  have h0 : ¬ ret = 0 := by omega
  have h1 : ¬ 0 < ret := by omega
  simp [launchJob, h0, h1, emit]

/-! ## The invariant holds in every reachable state -/

theorem mem_of_mem_mapErase {α : Type} (m : List (Int × α)) (k : Int) (e : Int × α)
    (h : e ∈ mapErase m k) : e ∈ m := by
  induction m with
  | nil => simp [mapErase] at h
  | cons x rest ih =>
    obtain ⟨a, v⟩ := x
    by_cases ha : a = k
    · simp only [mapErase, ha, if_true] at h
      exact List.mem_cons_of_mem _ (ih h)
    · simp only [mapErase, ha, if_false, List.mem_cons] at h
      rcases h with h | h
      · simp [h]
      · exact List.mem_cons_of_mem _ (ih h)

theorem Inv.initial : Inv initialState := by
  constructor <;> simp [initialState, mapKeys]

theorem Sequential.at_start : Sequential initialState := by
  constructor <;> simp [initialState, mapKeys]

theorem Inv.after_emit {s : ShellState} (hI : Inv s) (e : Event) : Inv (emit e s) :=
  ⟨hI.sorted, hI.names, hI.owner, hI.pids⟩

theorem Inv.after_handleFg {s : ShellState} (hI : Inv s) (jobID : Int)
    (during : List Signal) : Inv (handleFg jobID during s) := by
  by_cases hc : mapCount s.jobs jobID = 0
  · rw [handleFg_absent s jobID during hc]; exact hI.after_emit _
  · obtain ⟨pid, name, hj, hn⟩ := hI.find_both jobID hc
    rw [handleFg_present s hI jobID pid name during hj hn]
    refine ⟨?_, ?_, rfl, ?_⟩
    · show (mapKeys (mapErase s.jobs jobID)).Pairwise _
      rw [mapKeys_erase]
      exact hI.sorted.filter _
    · show mapKeys (mapErase s.jobNames jobID) = mapKeys (mapErase s.jobs jobID)
      rw [mapKeys_erase, mapKeys_erase, hI.names]
    · intro e he
      exact hI.pids e (mem_of_mem_mapErase _ _ _ he)

theorem Inv.after_handleBg {s : ShellState} (hI : Inv s) (jobID : Int) : Inv (handleBg jobID s) := by
  by_cases hc : mapCount s.jobs jobID = 0
  · rw [handleBg_absent s jobID hc]; exact hI.after_emit _
  · obtain ⟨pid, name, hj, hn⟩ := hI.find_both jobID hc
    rw [handleBg_present s hI jobID pid name hj hn]
    exact ⟨hI.sorted, hI.names, hI.owner, hI.pids⟩

theorem Inv.after_listJobs {s : ShellState} (hI : Inv s) : Inv (listJobs s) := by
  rw [listJobs_eq s hI]
  exact ⟨hI.sorted, hI.names, hI.owner, hI.pids⟩

theorem Inv.after_signalHandler {s : ShellState} (hI : Inv s) (signum : Signal) :
    Inv (signalHandler signum s) := by
  rw [signalHandler_idle s signum (by rw [hI.owner]; decide)]
  exact hI

theorem Inv.after_launchJob {s s' : ShellState} (hI : Inv s) (args : List String)
    (inBackground : Bool) (forkRet : Int) (execOk : Bool) (during : List Signal)
    (h : launchJob args inBackground forkRet execOk during s = Outcome.running s') :
    Inv s' := by
  rcases lt_trichotomy forkRet 0 with hneg | hzero | hpos
  · rw [launchJob_forkFailed s args inBackground forkRet execOk during hneg] at h
    injection h with h
    subst h
    exact ⟨hI.sorted, hI.names, hI.owner, hI.pids⟩
  · subst hzero
    cases args with
    | nil => simp [NolanShell.launchJob] at h
    | cons a rest => cases execOk <;> simp [NolanShell.launchJob] at h
  · cases inBackground with
    | false =>
      rw [launchJob_foreground s args forkRet execOk during hpos] at h
      injection h with h
      subst h
      exact ⟨hI.sorted, hI.names, rfl, hI.pids⟩
    | true =>
      cases args with
      | nil =>
        have h0 : ¬ forkRet = 0 := by omega
        simp [NolanShell.launchJob, h0, hpos] at h
      | cons name rest =>
        rw [launchJob_background_any s name rest forkRet execOk during hpos] at h
        injection h with h
        subst h
        refine ⟨mapAssign_sorted _ _ _ hI.sorted,
          mapAssign_keys_congr _ _ _ _ _ hI.names, hI.owner, ?_⟩
        intro e he
        rcases mem_mapAssign _ _ _ _ he with h1 | h1
        · rw [h1]; exact hpos
        · exact hI.pids e h1

theorem applyOp_inv {s s' : ShellState} (hI : Inv s) (op : Op)
    (h : applyOp op s = Outcome.running s') : Inv s' := by
  cases op with
  | prompt =>
    simp only [applyOp, Outcome.running.injEq] at h
    subst h
    exact hI.after_emit _
  | launch args inBackground forkRet execOk during =>
    exact hI.after_launchJob args inBackground forkRet execOk during h
  | jobs =>
    simp only [applyOp, Outcome.running.injEq] at h
    subst h
    exact hI.after_listJobs
  | fg jobID during =>
    simp only [applyOp, Outcome.running.injEq] at h
    subst h
    exact hI.after_handleFg jobID during
  | bg jobID =>
    simp only [applyOp, Outcome.running.injEq] at h
    subst h
    exact hI.after_handleBg jobID
  | signal signum =>
    simp only [applyOp, Outcome.running.injEq] at h
    subst h
    exact hI.after_signalHandler signum

theorem applyOp_sequential {s s' : ShellState} (hI : Inv s) (hS : Sequential s) (op : Op)
    (h : applyOp op s = Outcome.running s')
    (hb : op.isBackgroundStart = true → s.job_counter < 2147483647) :
    Sequential s' ∧
      s'.job_counter = s.job_counter + (if op.isBackgroundStart then 1 else 0) := by
  cases op with
  | prompt =>
    simp only [applyOp, Outcome.running.injEq] at h
    subst h
    exact ⟨⟨hS.bound, hS.counter, hS.limit⟩, by simp [Op.isBackgroundStart, emit]⟩
  | launch args inBackground forkRet execOk during =>
    simp only [applyOp] at h
    rcases lt_trichotomy forkRet 0 with hneg | hzero | hpos
    · rw [launchJob_forkFailed s args inBackground forkRet execOk during hneg] at h
      have hn : ¬ 0 < forkRet := by omega
      injection h with h
      subst h
      exact ⟨⟨hS.bound, hS.counter, hS.limit⟩, by simp [Op.isBackgroundStart, hn]⟩
    · subst hzero
      cases args with
      | nil => simp [launchJob] at h
      | cons a rest => cases execOk <;> simp [launchJob] at h
    · cases inBackground with
      | false =>
        rw [launchJob_foreground s args forkRet execOk during hpos] at h
        injection h with h
        subst h
        exact ⟨⟨hS.bound, hS.counter, hS.limit⟩, by simp [Op.isBackgroundStart]⟩
      | true =>
        cases args with
        | nil =>
          have h0 : ¬ forkRet = 0 := by omega
          simp [launchJob, h0, hpos] at h
        | cons name rest =>
          have hlt : s.job_counter < 2147483647 := hb (by simp [Op.isBackgroundStart, hpos])
          have hc := hS.counter
          have hw : toInt32 (s.job_counter + 1) = s.job_counter + 1 :=
            toInt32_of_range _ (by omega) (by omega)
          rw [launchJob_background s hI hS name rest forkRet execOk during hpos, hw] at h
          injection h with h
          subst h
          refine ⟨⟨?_, ?_, ?_⟩, by simp [Op.isBackgroundStart, hpos]⟩
          · intro k hk
            have hk2 : k ∈ mapKeys (s.jobs ++ [(s.job_counter, forkRet)]) := hk
            simp only [mapKeys, List.map_append, List.map_cons, List.map_nil, List.mem_append,
              List.mem_singleton] at hk2
            show 1 ≤ k ∧ k < s.job_counter + 1
            rcases hk2 with hk2 | hk2
            · have := hS.bound k hk2
              omega
            · subst hk2
              exact ⟨hc, by omega⟩
          · show 1 ≤ s.job_counter + 1
            omega
          · show s.job_counter + 1 ≤ 2147483647
            omega
  | jobs =>
    simp only [applyOp, Outcome.running.injEq] at h
    subst h
    rw [listJobs_eq s hI]
    exact ⟨⟨hS.bound, hS.counter, hS.limit⟩, by simp [Op.isBackgroundStart]⟩
  | fg jobID during =>
    simp only [applyOp, Outcome.running.injEq] at h
    subst h
    by_cases hc : mapCount s.jobs jobID = 0
    · rw [handleFg_absent s jobID during hc]
      exact ⟨⟨hS.bound, hS.counter, hS.limit⟩, by simp [Op.isBackgroundStart, emit]⟩
    · obtain ⟨pid, name, hj, hn⟩ := hI.find_both jobID hc
      rw [handleFg_present s hI jobID pid name during hj hn]
      refine ⟨⟨?_, hS.counter, hS.limit⟩, by simp [Op.isBackgroundStart]⟩
      intro k hk
      have hk2 : k ∈ mapKeys (mapErase s.jobs jobID) := hk
      rw [mapKeys_erase] at hk2
      exact hS.bound k (List.mem_of_mem_filter hk2)
  | bg jobID =>
    simp only [applyOp, Outcome.running.injEq] at h
    subst h
    by_cases hc : mapCount s.jobs jobID = 0
    · rw [handleBg_absent s jobID hc]
      exact ⟨⟨hS.bound, hS.counter, hS.limit⟩, by simp [Op.isBackgroundStart, emit]⟩
    · obtain ⟨pid, name, hj, hn⟩ := hI.find_both jobID hc
      rw [handleBg_present s hI jobID pid name hj hn]
      exact ⟨⟨hS.bound, hS.counter, hS.limit⟩, by simp [Op.isBackgroundStart]⟩
  | signal signum =>
    simp only [applyOp, Outcome.running.injEq] at h
    subst h
    rw [signalHandler_idle s signum (by rw [hI.owner]; decide)]
    exact ⟨hS, by simp [Op.isBackgroundStart]⟩

theorem countStarted_cons (op : Op) (ops : List Op) :
    countStarted (op :: ops) = (if op.isBackgroundStart then 1 else 0) + countStarted ops := by
  by_cases h : op.isBackgroundStart = true
  · simp [countStarted, List.filter_cons, h]; omega
  · simp [countStarted, List.filter_cons, h]

theorem countStarted_append (a b : List Op) :
    countStarted (a ++ b) = countStarted a + countStarted b := by
  simp [countStarted, List.filter_append]

theorem runOps_inv (ops : List Op) (s s' : ShellState) (hI : Inv s)
    (h : runOps s ops = some s') : Inv s' := by
  induction ops generalizing s with
  | nil =>
    simp only [runOps, Option.some.injEq] at h
    subst h
    exact hI
  | cons op rest ih =>
    simp only [runOps] at h
    cases ho : applyOp op s with
    | running s1 =>
      rw [ho] at h
      exact ih s1 (applyOp_inv hI op ho) h
    | exited code s1 => rw [ho] at h; cases h
    | execed argv s1 => rw [ho] at h; cases h
    | terminated s1 => rw [ho] at h; cases h
    | undefined => rw [ho] at h; cases h

theorem runOps_sequential (ops : List Op) (s s' : ShellState) (hI : Inv s)
    (hS : Sequential s) (h : runOps s ops = some s')
    (hb : s.job_counter + (countStarted ops : Int) ≤ 2147483647) :
    Sequential s' ∧ s'.job_counter = s.job_counter + countStarted ops := by
  induction ops generalizing s with
  | nil =>
    simp only [runOps, Option.some.injEq] at h
    subst h
    exact ⟨hS, by simp [countStarted]⟩
  | cons op rest ih =>
    simp only [runOps] at h
    rw [countStarted_cons] at hb
    cases ho : applyOp op s with
    | running s1 =>
      rw [ho] at h
      have hop : op.isBackgroundStart = true → s.job_counter < 2147483647 := by
        intro hst
        simp only [hst, if_true] at hb
        push_cast at hb
        omega
      obtain ⟨hS1, hc1⟩ := applyOp_sequential hI hS op ho hop
      have hb1 : s1.job_counter + (countStarted rest : Int) ≤ 2147483647 := by
        rw [hc1]
        by_cases hst : op.isBackgroundStart = true
        · simp only [hst, if_true] at hb ⊢
          push_cast at hb
          omega
        · simp only [hst] at hb ⊢
          push_cast at hb
          simpa using hb
      obtain ⟨hS2, hc2⟩ := ih s1 (applyOp_inv hI op ho) hS1 h hb1
      refine ⟨hS2, ?_⟩
      rw [hc2, hc1, countStarted_cons]
      by_cases hst : op.isBackgroundStart = true
      · simp [hst]; omega
      · simp [hst]
    | exited code s1 => rw [ho] at h; cases h
    | execed argv s1 => rw [ho] at h; cases h
    | terminated s1 => rw [ho] at h; cases h
    | undefined => rw [ho] at h; cases h

theorem runOps_append (a b : List Op) (s : ShellState) :
    runOps s (a ++ b) = (runOps s a).bind (fun s' => runOps s' b) := by
  induction a generalizing s with
  | nil => simp [runOps]
  | cons op rest ih =>
    simp only [List.cons_append, runOps]
    cases applyOp op s <;> simp [ih]

theorem Reachable.inv {s : ShellState} (h : Reachable s) : Inv s := by
  obtain ⟨ops, hops⟩ := h
  exact runOps_inv ops initialState s Inv.initial hops

/-- Until `INT_MAX` background jobs have been started the counter has not
wrapped: it is one more than the number of jobs started. -/
theorem runOps_counter (ops : List Op) (s : ShellState)
    (h : runOps initialState ops = some s) (hb : countStarted ops ≤ 2147483646) :
    Sequential s ∧ s.job_counter = (countStarted ops : Int) + 1 := by
  have hb2 : initialState.job_counter + (countStarted ops : Int) ≤ 2147483647 := by
    simp only [initialState]
    omega
  obtain ⟨hS, hc⟩ := runOps_sequential ops initialState s Inv.initial Sequential.at_start h hb2
  refine ⟨hS, ?_⟩
  rw [hc]
  simp only [initialState]
  omega

theorem sessionState_run : runOps initialState sessionOps = some sessionState := by
  decide

theorem sessionState_reachable : Reachable sessionState :=
  ⟨sessionOps, sessionState_run⟩

/-! ## Job identifiers -/

/-- C1.  Take any sequence of operations that returned to the shell from the
initial state, and let `n` be the number of background dispatches started in
it.  As long as `n ≤ 2147483646`, so that the next id `n + 1` is still an `int`:
`job_counter` is `n + 1`, every id in the table lies in `1..n`, and the next
background dispatch whose `fork` succeeds returns, is registered under the id
`n + 1` (a key that was absent), with the new handle and `args[0]` as name, and
leaves all other keys as they were.  Hence the k-th started background job
gets id `k` for every `k` up to `INT_MAX`, whatever `fg` removed before.
Afterwards the counter is `n + 2`, except for `n + 1 = INT_MAX`, where it wraps
around to -2147483648. -/
theorem job_ids_sequential (ops : List Op) (s : ShellState)
    (h : runOps initialState ops = some s) (hb : countStarted ops ≤ 2147483646)
    (name : String) (rest : List String) (pid : Int) (execOk : Bool)
    (during : List Signal) (hp : 0 < pid) :
    s.job_counter = (countStarted ops : Int) + 1 ∧
    (∀ k ∈ mapKeys s.jobs, 1 ≤ k ∧ k ≤ (countStarted ops : Int)) ∧
    ∃ s', launchJob (name :: rest) true pid execOk during s = Outcome.running s' ∧
      runOps initialState (ops ++ [Op.launch (name :: rest) true pid execOk during]) =
        some s' ∧
      countStarted (ops ++ [Op.launch (name :: rest) true pid execOk during]) =
        countStarted ops + 1 ∧
      mapCount s.jobs ((countStarted ops : Int) + 1) = 0 ∧
      mapFind s'.jobs ((countStarted ops : Int) + 1) = some pid ∧
      mapFind s'.jobNames ((countStarted ops : Int) + 1) = some name ∧
      (∀ k, k ≠ (countStarted ops : Int) + 1 →
        mapFind s'.jobs k = mapFind s.jobs k ∧
        mapFind s'.jobNames k = mapFind s.jobNames k) ∧
      (countStarted ops < 2147483646 → s'.job_counter = (countStarted ops : Int) + 2) ∧
      (countStarted ops = 2147483646 → s'.job_counter = -2147483648) := by
  have hI : Inv s := runOps_inv ops initialState s Inv.initial h
  obtain ⟨hS, hc1⟩ := runOps_counter ops s h hb
  have hfresh : s.job_counter ∉ mapKeys s.jobs := fun hk => by
    have := (hS.bound _ hk).2
    omega
  have hfreshN : s.job_counter ∉ mapKeys s.jobNames := by rw [hI.names]; exact hfresh
  have hl := launchJob_background s hI hS name rest pid execOk during hp
  refine ⟨hc1, ?_, _, hl, ?_, ?_, ?_, ?_, ?_, ?_, ?_, ?_⟩
  · intro k hk
    have := hS.bound k hk
    omega
  · rw [runOps_append, h]
    simp [runOps, applyOp, hl]
  · rw [countStarted_append]
    simp [countStarted, Op.isBackgroundStart, hp]
  · rw [← hc1]
    exact (mapCount_eq_zero_iff _ _).2 hfresh
  · rw [← hc1]
    exact mapFind_append_new _ _ _ hfresh
  · rw [← hc1]
    exact mapFind_append_new _ _ _ hfreshN
  · intro k hk
    rw [← hc1] at hk
    exact ⟨mapFind_append_old _ _ _ _ hk, mapFind_append_old _ _ _ _ hk⟩
  · intro hlt
    show toInt32 (s.job_counter + 1) = _
    rw [toInt32_of_range _ (by omega) (by omega)]
    omega
  · intro heq
    show toInt32 (s.job_counter + 1) = _
    unfold toInt32
    omega

/-- C1 on the sample session: after two started jobs and `fg 1`, the next
background job is registered under id 3, not under the freed id 1. -/
theorem job_ids_sequential_witness :
    runOps initialState sessionOps = some sessionState ∧
    countStarted sessionOps = 2 ∧
    ∃ s', launchJob ["ls", "-l"] true 4260 true [] sessionState = Outcome.running s' ∧
      mapFind s'.jobs 3 = some 4260 ∧ mapFind s'.jobNames 3 = some "ls" ∧
      mapFind s'.jobs 1 = none ∧ s'.job_counter = 4 := by
  have hn : countStarted sessionOps = 2 := by decide
  have h := job_ids_sequential sessionOps sessionState sessionState_run (by rw [hn]; decide)
    "ls" ["-l"] 4260 true [] (by decide)
  rw [hn] at h
  obtain ⟨_, _, s', h1, _, _, _, h5, h6, h7, h8, _⟩ := h
  refine ⟨sessionState_run, hn, s', h1, h5, h6, ?_, h8 (by decide)⟩
  rw [(h7 1 (by decide)).1]
  decide

/-! ## Listing -/

theorem mapFind_of_mem {α : Type} (m : List (Int × α)) (k : Int) (v : α)
    (hs : (mapKeys m).Pairwise (fun a b => a < b)) (h : (k, v) ∈ m) :
    mapFind m k = some v := by
  induction m with
  | nil => simp at h
  | cons e rest ih =>
    obtain ⟨a, w⟩ := e
    simp only [mapKeys, List.map_cons, List.pairwise_cons] at hs
    simp only [List.mem_cons, Prod.mk.injEq] at h
    rcases h with h | h
    · simp [mapFind, h.1, h.2]
    · have hk : k ∈ mapKeys rest := List.mem_map_of_mem Prod.fst h
      have hlt : a < k := hs.1 k hk
      have hne : ¬ a = k := by omega
      simp only [mapFind, hne, if_false]
      exact ih hs.2 h

theorem jobTable_mem_iff (s : ShellState) (hI : Inv s) (id : Int) (name : String) (pid : Int) :
    (id, name, pid) ∈ jobTable s ↔
      mapFind s.jobs id = some pid ∧ mapFind s.jobNames id = some name := by
  constructor
  · intro h
    simp only [jobTable, List.mem_map, Prod.mk.injEq] at h
    obtain ⟨e, he, h1, h2, h3⟩ := h
    obtain ⟨k, v⟩ := e
    simp only at h1 h2 h3
    subst h1 h3
    have hk : k ∈ mapKeys s.jobNames := by
      rw [hI.names]; exact List.mem_map_of_mem Prod.fst he
    obtain ⟨n, hn⟩ := mapFind_of_mem_keys _ _ hk
    refine ⟨mapFind_of_mem _ _ _ hI.sorted he, ?_⟩
    rw [hn] at h2 ⊢
    simpa using h2
  · rintro ⟨h1, h2⟩
    simp only [jobTable, List.mem_map, Prod.mk.injEq]
    exact ⟨(id, pid), mem_of_mapFind _ _ _ h1, rfl, by simp [h2], rfl⟩

theorem jobTable_ids (s : ShellState) : (jobTable s).map (fun j => j.1) = mapKeys s.jobs := by
  simp [jobTable, mapKeys, List.map_map, Function.comp_def]

theorem jobTable_append (s : ShellState) (hI : Inv s) (hS : Sequential s) (name : String)
    (pid : Int) (tr : List Event) (c : Int) (fg : Int) :
    jobTable { jobs := s.jobs ++ [(s.job_counter, pid)],
               jobNames := s.jobNames ++ [(s.job_counter, name)],
               job_counter := c, current_foreground_pid := fg, trace := tr } =
      jobTable s ++ [(s.job_counter, name, pid)] := by
  have hfresh : s.job_counter ∉ mapKeys s.jobNames := fun hk => by
    rw [hI.names] at hk
    have := (hS.bound _ hk).2
    omega
  simp only [jobTable, List.map_append, List.map_cons, List.map_nil]
  congr 1
  · apply List.map_congr_left
    intro e he
    have hk : e.1 ∈ mapKeys s.jobs := List.mem_map_of_mem Prod.fst he
    have hne : e.1 ≠ s.job_counter := by
      have := (hS.bound _ hk).2
      omega
    rw [mapFind_append_old _ _ _ _ hne]
  · rw [mapFind_append_new _ _ _ hfresh]
    rfl

theorem numbered_append (ds : List Dispatch) (d : Dispatch) :
    numbered (ds ++ [d]) = numbered ds ++ [((ds.length : Int) + 1, d.name, d.pid)] := by
  simp [numbered, List.enumFrom_append]
  omega

theorem countStarted_backgroundOps (ds : List Dispatch) (hp : ∀ d ∈ ds, 0 < d.pid) :
    countStarted (backgroundOps ds) = ds.length := by
  induction ds with
  | nil => rfl
  | cons d rest ih =>
    have hd : 0 < d.pid := hp d (by simp)
    have hr := ih (fun x hx => hp x (List.mem_cons_of_mem _ hx))
    rw [backgroundOps] at hr ⊢
    rw [List.map_cons, countStarted_cons, hr]
    simp [Dispatch.op, Op.isBackgroundStart, hd]
    omega

theorem background_round_trip (ds : List Dispatch) (hp : ∀ d ∈ ds, 0 < d.pid)
    (hn : ds.length ≤ 2147483647) :
    ∃ t, runOps initialState (backgroundOps ds) = some t ∧ jobTable t = numbered ds := by
  induction ds using List.reverseRecOn with
  | nil => exact ⟨initialState, rfl, rfl⟩
  | append_singleton ds d ih =>
    have hlen : ds.length + 1 ≤ 2147483647 := by simpa using hn
    have hps : ∀ x ∈ ds, 0 < x.pid := fun x hx => hp x (List.mem_append_left _ hx)
    obtain ⟨t, hrun, htab⟩ := ih hps (by omega)
    have hI : Inv t := runOps_inv _ _ _ Inv.initial hrun
    have hcount := countStarted_backgroundOps ds hps
    obtain ⟨hS, hc⟩ := runOps_counter _ t hrun (by rw [hcount]; omega)
    rw [hcount] at hc
    have hd : 0 < d.pid := hp d (by simp)
    refine ⟨{ jobs := t.jobs ++ [(t.job_counter, d.pid)],
              jobNames := t.jobNames ++ [(t.job_counter, d.name)],
              job_counter := toInt32 (t.job_counter + 1),
              current_foreground_pid := t.current_foreground_pid,
              trace := t.trace ++
                [Event.fork d.pid, Event.cout (startedLine t.job_counter d.name)] }, ?_, ?_⟩
    · rw [backgroundOps, List.map_append, runOps_append]
      rw [backgroundOps] at hrun
      rw [hrun]
      simp only [List.map_cons, List.map_nil, Option.some_bind, runOps, applyOp, Dispatch.op]
      rw [launchJob_background t hI hS d.name d.rest d.pid d.execOk [] hd]
    · rw [jobTable_append t hI hS, htab, numbered_append, hc]

/-- C2.  In every reachable state `listJobs` changes none of the four globals
and prints, after the header, exactly one line per record of the job table, in
table order, each built from that record's id, name and process handle; the ids
of the table are strictly ascending, the records are exactly the pairs of
entries of `jobs` and `jobNames` with the same key, and both maps have as many
entries as the table.  After the background dispatches `ds` (each with a
successful `fork`, and at most `INT_MAX` = 2147483647 of them, the ids an `int`
counter reaches before it wraps around) from the initial state, the table is
`ds` numbered from 1, so the listing has one line per dispatch with ids `1..N`
and the program names in order. -/
theorem listJobs_reflects_table (s : ShellState) (h : Reachable s)
    (ds : List Dispatch) (hp : ∀ d ∈ ds, 0 < d.pid) (hn : ds.length ≤ 2147483647) :
    ((listJobs s).jobs = s.jobs ∧ (listJobs s).jobNames = s.jobNames ∧
      (listJobs s).job_counter = s.job_counter ∧
      (listJobs s).current_foreground_pid = s.current_foreground_pid) ∧
    (listJobs s).trace =
      s.trace ++ Event.cout "Current jobs:\n" :: (jobTable s).map listingEvent ∧
    ((jobTable s).map (fun j => j.1)).Pairwise (fun a b => a < b) ∧
    (∀ id name pid, (id, name, pid) ∈ jobTable s ↔
      mapFind s.jobs id = some pid ∧ mapFind s.jobNames id = some name) ∧
    (jobTable s).length = s.jobs.length ∧ (jobTable s).length = s.jobNames.length ∧
    ∃ t, runOps initialState (backgroundOps ds) = some t ∧
      jobTable t = numbered ds ∧
      (jobTable t).length = ds.length ∧
      (jobTable t).map (fun j => j.1) = (List.range' 1 ds.length).map (fun (i : Nat) => (i : Int)) ∧
      (jobTable t).map (fun j => j.2.1) = ds.map (fun d => d.name) ∧
      (listJobs t).jobs = t.jobs ∧ (listJobs t).jobNames = t.jobNames ∧
      (listJobs t).trace =
        t.trace ++ Event.cout "Current jobs:\n" :: (numbered ds).map listingEvent := by
  have hI := h.inv
  have hl := listJobs_eq s hI
  refine ⟨⟨by rw [hl], by rw [hl], by rw [hl], by rw [hl]⟩, by rw [hl], ?_, ?_, ?_, ?_, ?_⟩
  · rw [jobTable_ids]; exact hI.sorted
  · exact jobTable_mem_iff s hI
  · simp [jobTable]
  · have := congrArg List.length hI.names
    simp only [mapKeys, List.length_map] at this
    simp [jobTable, this]
  · obtain ⟨t, hrun, htab⟩ := background_round_trip ds hp hn
    have hIt : Inv t := runOps_inv _ _ _ Inv.initial hrun
    have hlt := listJobs_eq t hIt
    refine ⟨t, hrun, htab, ?_, ?_, ?_, by rw [hlt], by rw [hlt], by rw [hlt, htab]⟩
    · simp [htab, numbered]
    · rw [htab]
      simp only [numbered, List.map_map]
      rw [List.enumFrom_eq_zip_range']
      apply List.ext_getElem
      · simp
      · intro i h1 h2
        simp
    · rw [htab]
      simp only [numbered, List.map_map]
      rw [List.enumFrom_eq_zip_range']
      apply List.ext_getElem
      · simp
      · intro i h1 h2
        simp

/-- C2 on the sample session and on three background dispatches. -/
theorem listJobs_reflects_table_witness :
    Reachable sessionState ∧ (∀ d ∈ sampleDispatches, 0 < d.pid) ∧
    sampleDispatches.length ≤ 2147483647 ∧
    (listJobs sessionState).jobs = [(2, 4250)] ∧
    (listJobs sessionState).trace = sessionState.trace ++
      [Event.cout "Current jobs:\n", Event.cout "[2] make (PID: 4250)\n"] ∧
    ∃ t, runOps initialState (backgroundOps sampleDispatches) = some t ∧
      jobTable t = [(1, "sleep", 4242), (2, "make", 4250), (3, "nosuchprogram", 4251)] ∧
      (listJobs t).trace = t.trace ++
        [Event.cout "Current jobs:\n", Event.cout "[1] sleep (PID: 4242)\n",
         Event.cout "[2] make (PID: 4250)\n", Event.cout "[3] nosuchprogram (PID: 4251)\n"] := by
  have hp : ∀ d ∈ sampleDispatches, 0 < d.pid := by decide
  obtain ⟨h1, h2, _, _, _, _, t, ht1, ht2, _, _, _, _, _, ht3⟩ :=
    listJobs_reflects_table sessionState sessionState_reachable sampleDispatches hp
      (by decide)
  have e1 : (jobTable sessionState).map listingEvent =
      [Event.cout "[2] make (PID: 4250)\n"] := by decide
  have e2 : numbered sampleDispatches =
      [(1, "sleep", 4242), (2, "make", 4250), (3, "nosuchprogram", 4251)] := by decide
  have e3 : (numbered sampleDispatches).map listingEvent =
      [Event.cout "[1] sleep (PID: 4242)\n", Event.cout "[2] make (PID: 4250)\n",
       Event.cout "[3] nosuchprogram (PID: 4251)\n"] := by decide
  rw [e1] at h2
  rw [e2] at ht2
  rw [e3] at ht3
  exact ⟨sessionState_reachable, hp, by decide, h1.1, h2, t, ht1, ht2, ht3⟩

/-! ## `fg` and `bg` -/

theorem twoJobsState_reachable : Reachable twoJobsState :=
  ⟨twoJobsOps, by decide⟩

/-- C3.  In a reachable state, for a `jobID` present in `jobs`, both maps hold
an entry for it (handle `pid`, name `name`); `handleFg jobID` prints its
message, sets the foreground owner to `pid`, sends `SIGCONT` to `pid`, waits on
`pid` and clears the owner, in that order; the only other effects are those of
the handler for the signals that arrive during the wait, and with no such
signal there is none.  Afterwards `jobID` is in neither map, the other keys
keep their order and their values, and `job_counter` is unchanged. -/
theorem handleFg_removes_job (s : ShellState) (h : Reachable s) (jobID : Int)
    (hp : mapCount s.jobs jobID ≠ 0) (during : List Signal) :
    ∃ pid name, mapFind s.jobs jobID = some pid ∧ mapFind s.jobNames jobID = some name ∧
      mapCount (handleFg jobID during s).jobs jobID = 0 ∧
      mapCount (handleFg jobID during s).jobNames jobID = 0 ∧
      mapKeys (handleFg jobID during s).jobs =
        (mapKeys s.jobs).filter (fun k => !decide (k = jobID)) ∧
      mapKeys (handleFg jobID during s).jobNames =
        (mapKeys s.jobNames).filter (fun k => !decide (k = jobID)) ∧
      (∀ k, k ≠ jobID →
        mapFind (handleFg jobID during s).jobs k = mapFind s.jobs k ∧
        mapFind (handleFg jobID during s).jobNames k = mapFind s.jobNames k) ∧
      (handleFg jobID during s).job_counter = s.job_counter ∧
      (handleFg jobID [] s).trace = s.trace ++
        [Event.cout (fgLine jobID name), Event.setForeground pid,
         Event.kill pid Signal.SIGCONT, Event.waitpid pid, Event.setForeground (-1)] ∧
      (handleFg jobID during s).trace = s.trace ++
        [Event.cout (fgLine jobID name), Event.setForeground pid,
         Event.kill pid Signal.SIGCONT, Event.waitpid pid] ++
        during.flatMap (handlerEvents pid) ++ [Event.setForeground (-1)] := by
  have hI := h.inv
  obtain ⟨pid, name, hj, hn⟩ := hI.find_both jobID hp
  have hf := handleFg_present s hI jobID pid name during hj hn
  have hf0 := handleFg_present s hI jobID pid name [] hj hn
  refine ⟨pid, name, hj, hn, ?_, ?_, ?_, ?_, ?_, ?_, ?_, ?_⟩
  · rw [hf]; exact mapCount_erase_self _ _
  · rw [hf]; exact mapCount_erase_self _ _
  · rw [hf]; exact mapKeys_erase _ _
  · rw [hf]; exact mapKeys_erase _ _
  · intro k hk
    rw [hf]
    exact ⟨mapFind_erase_ne _ _ _ hk, mapFind_erase_ne _ _ _ hk⟩
  · rw [hf]
  · rw [hf0]; simp
  · rw [hf]

/-- C3 on the sample session: `fg 1` after two started jobs. -/
theorem handleFg_removes_job_witness :
    Reachable twoJobsState ∧ mapCount twoJobsState.jobs 1 ≠ 0 ∧
    (handleFg 1 [] twoJobsState).jobs = [(2, 4250)] ∧
    (handleFg 1 [] twoJobsState).jobNames = [(2, "make")] ∧
    ∃ pid name, mapFind twoJobsState.jobs 1 = some pid ∧
      (handleFg 1 [] twoJobsState).trace = twoJobsState.trace ++
        [Event.cout (fgLine 1 name), Event.setForeground pid,
         Event.kill pid Signal.SIGCONT, Event.waitpid pid, Event.setForeground (-1)] := by
  obtain ⟨pid, name, h1, _, _, _, _, _, _, _, h9, _⟩ :=
    handleFg_removes_job twoJobsState twoJobsState_reachable 1 (by decide) []
  exact ⟨twoJobsState_reachable, by decide, by decide, by decide, pid, name, h1, h9⟩

/-- C4.  For a `jobID` absent from `jobs`, in any state, `handleFg` and
`handleBg` write "Job ID not found." to `cerr` and do nothing else: the four
globals are unchanged and the only event added to the trace is that message, so
no signal is sent and no wait is performed. -/
theorem job_not_found_no_mutation (s : ShellState) (jobID : Int)
    (h : mapCount s.jobs jobID = 0) (during : List Signal) :
    (handleFg jobID during s = handleBg jobID s) ∧
    (handleFg jobID during s).jobs = s.jobs ∧
    (handleFg jobID during s).jobNames = s.jobNames ∧
    (handleFg jobID during s).job_counter = s.job_counter ∧
    (handleFg jobID during s).current_foreground_pid = s.current_foreground_pid ∧
    (handleFg jobID during s).trace = s.trace ++ [Event.cerr "Job ID not found.\n"] ∧
    (handleBg jobID s).jobs = s.jobs ∧ (handleBg jobID s).jobNames = s.jobNames ∧
    (handleBg jobID s).job_counter = s.job_counter ∧
    (handleBg jobID s).current_foreground_pid = s.current_foreground_pid ∧
    (handleBg jobID s).trace = s.trace ++ [Event.cerr "Job ID not found.\n"] := by
  rw [handleFg_absent s jobID during h, handleBg_absent s jobID h]
  simp [emit]

/-- C4 on the sample session: id 1 is gone after `fg 1`, id 99 never existed. -/
theorem job_not_found_no_mutation_witness :
    mapCount sessionState.jobs 1 = 0 ∧
    (handleFg 1 [] sessionState).jobs = sessionState.jobs ∧
    (handleBg 1 sessionState).trace =
      sessionState.trace ++ [Event.cerr "Job ID not found.\n"] ∧
    (handleFg 99 [] initialState).trace = [Event.cerr "Job ID not found.\n"] := by
  have h1 := job_not_found_no_mutation sessionState 1 (by decide) []
  have h2 := job_not_found_no_mutation initialState 99 (by decide) []
  exact ⟨by decide, h1.2.1, h1.2.2.2.2.2.2.2.2.2.2, by simpa [initialState] using h2.2.2.2.2.2.1⟩

/-- C5.  In a reachable state, for a `jobID` present in `jobs` (handle `pid`,
name `name`), `handleBg jobID` prints its message and sends one `SIGCONT`, to
`pid`; it adds nothing else to the trace (no wait) and leaves `jobs`,
`jobNames`, `job_counter` and `current_foreground_pid` as they were. -/
theorem handleBg_frame (s : ShellState) (h : Reachable s) (jobID : Int)
    (hp : mapCount s.jobs jobID ≠ 0) :
    ∃ pid name, mapFind s.jobs jobID = some pid ∧ mapFind s.jobNames jobID = some name ∧
      (handleBg jobID s).jobs = s.jobs ∧ (handleBg jobID s).jobNames = s.jobNames ∧
      (handleBg jobID s).jobs.length = s.jobs.length ∧
      (handleBg jobID s).jobNames.length = s.jobNames.length ∧
      (handleBg jobID s).job_counter = s.job_counter ∧
      (handleBg jobID s).current_foreground_pid = s.current_foreground_pid ∧
      (handleBg jobID s).trace = s.trace ++
        [Event.cout (bgLine jobID name), Event.kill pid Signal.SIGCONT] := by
  have hI := h.inv
  obtain ⟨pid, name, hj, hn⟩ := hI.find_both jobID hp
  have hf := handleBg_present s hI jobID pid name hj hn
  refine ⟨pid, name, hj, hn, ?_, ?_, ?_, ?_, ?_, ?_, ?_⟩ <;> rw [hf]

/-- C5 on the sample session: `bg 2` after two started jobs. -/
theorem handleBg_frame_witness :
    Reachable twoJobsState ∧ mapCount twoJobsState.jobs 2 ≠ 0 ∧
    ∃ pid name, mapFind twoJobsState.jobs 2 = some pid ∧
      (handleBg 2 twoJobsState).jobs = twoJobsState.jobs ∧
      (handleBg 2 twoJobsState).trace = twoJobsState.trace ++
        [Event.cout (bgLine 2 name), Event.kill pid Signal.SIGCONT] := by
  obtain ⟨pid, name, h1, _, h3, _, _, _, _, _, h9⟩ :=
    handleBg_frame twoJobsState twoJobsState_reachable 2 (by decide)
  exact ⟨twoJobsState_reachable, by decide, pid, name, h1, h3, h9⟩

/-! ## Signal forwarding and the foreground owner -/

/-- C6.  For `SIGINT` and `SIGTSTP`, in any state: when the foreground owner is
empty (`-1`, and more generally not a positive handle) `signalHandler` returns
the state as it is, so it prints nothing and signals no process; when the owner
is a handle `p > 0` it prints its notice and sends one signal, of the kind
received, to `p`, and adds nothing else to the trace.  In both cases `jobs`,
`jobNames`, `job_counter` and `current_foreground_pid` are unchanged. -/
theorem signalHandler_forwards (s : ShellState) (signum : Signal)
    (hs : signum = Signal.SIGINT ∨ signum = Signal.SIGTSTP) :
    (s.current_foreground_pid = -1 → signalHandler signum s = s) ∧
    (s.current_foreground_pid ≤ 0 → signalHandler signum s = s) ∧
    (∀ p, 0 < p → s.current_foreground_pid = p →
      (signalHandler signum s).trace =
        s.trace ++ [Event.cout (noticeOf signum), Event.kill p signum]) ∧
    (signalHandler signum s).jobs = s.jobs ∧
    (signalHandler signum s).jobNames = s.jobNames ∧
    (signalHandler signum s).job_counter = s.job_counter ∧
    (signalHandler signum s).current_foreground_pid = s.current_foreground_pid := by
  refine ⟨fun h => signalHandler_idle s signum (by rw [h]; decide),
    signalHandler_idle s signum, ?_, ?_⟩
  · intro p hp hc
    subst hc
    rcases hs with hs | hs <;> subst hs <;> simp [signalHandler, hp, emit, noticeOf]
  · by_cases hp : 0 < s.current_foreground_pid
    · rcases hs with hs | hs <;> subst hs <;> simp [signalHandler, hp, emit]
    · simp [signalHandler, hp]

/-- C6 at the initial state (owner empty) and during a foreground wait on the
child 4242. -/
theorem signalHandler_forwards_witness :
    signalHandler Signal.SIGINT initialState = initialState ∧
    signalHandler Signal.SIGTSTP initialState = initialState ∧
    (signalHandler Signal.SIGINT waitingState).trace =
      waitingState.trace ++ [Event.cout interruptNotice, Event.kill 4242 Signal.SIGINT] ∧
    (signalHandler Signal.SIGTSTP waitingState).trace =
      waitingState.trace ++ [Event.cout stopNotice, Event.kill 4242 Signal.SIGTSTP] :=
  ⟨(signalHandler_forwards initialState Signal.SIGINT (Or.inl rfl)).1 rfl,
   (signalHandler_forwards initialState Signal.SIGTSTP (Or.inr rfl)).1 rfl,
   (signalHandler_forwards waitingState Signal.SIGINT (Or.inl rfl)).2.2.1 4242 (by decide) rfl,
   (signalHandler_forwards waitingState Signal.SIGTSTP (Or.inr rfl)).2.2.1 4242 (by decide) rfl⟩

theorem handlerEvents_forward (pid : Int) (hp : 0 < pid) :
    handlerEvents pid Signal.SIGINT =
      [Event.cout interruptNotice, Event.kill pid Signal.SIGINT] ∧
    handlerEvents pid Signal.SIGTSTP =
      [Event.cout stopNotice, Event.kill pid Signal.SIGTSTP] := by
  simp [handlerEvents, hp]

/-- C7.  Every state reached from the initial state by operations that
returned has `current_foreground_pid = -1`, so a signal handled there goes
nowhere, and from such a state every main-thread operation returns with
`current_foreground_pid = -1`: `launchJob` in the shell process in foreground
mode, in background mode and with a failed `fork`, `listJobs`, and `handleFg`
and `handleBg` on any id.
A foreground `launchJob` whose `fork` returns `pid` enters its wait in a state
whose owner is `pid`: the handler run in that state for `SIGINT` or `SIGTSTP`
signals `pid`, and the effects of the call are, in order, `fork`, owner := `pid`,
`waitpid pid`, for each signal arriving during the wait what the handler does
with owner `pid` (notice and `kill pid`), owner := `-1`.  `handleFg` on a present
id with handle `pid` does the same around its wait, after its message and the
`SIGCONT` to `pid`. -/
theorem foreground_owner_lifecycle (ops : List Op) (s : ShellState)
    (h : runOps initialState ops = some s) :
    s.current_foreground_pid = -1 ∧
    (∀ signum, signalHandler signum s = s) ∧
    (∀ args pid execOk during, 0 < pid →
      (waitpid pid [] (setForeground pid (emit (Event.fork pid) s))).current_foreground_pid =
        pid ∧
      launchJob args false pid execOk during s =
        Outcome.running (setForeground (-1)
          (waitpid pid during (setForeground pid (emit (Event.fork pid) s)))) ∧
      handlerEvents pid Signal.SIGINT =
        [Event.cout interruptNotice, Event.kill pid Signal.SIGINT] ∧
      handlerEvents pid Signal.SIGTSTP =
        [Event.cout stopNotice, Event.kill pid Signal.SIGTSTP] ∧
      ∃ s', launchJob args false pid execOk during s = Outcome.running s' ∧
        s'.current_foreground_pid = -1 ∧
        s'.trace = s.trace ++ [Event.fork pid, Event.setForeground pid,
          Event.waitpid pid] ++ during.flatMap (handlerEvents pid) ++
          [Event.setForeground (-1)]) ∧
    (∀ name rest pid execOk during, 0 < pid →
      ∃ s', launchJob (name :: rest) true pid execOk during s = Outcome.running s' ∧
        s'.current_foreground_pid = -1) ∧
    (∀ args inBackground ret execOk during, ret < 0 →
      ∃ s', launchJob args inBackground ret execOk during s = Outcome.running s' ∧
        s'.current_foreground_pid = -1) ∧
    (listJobs s).current_foreground_pid = -1 ∧
    (∀ jobID during, (handleFg jobID during s).current_foreground_pid = -1 ∧
      (handleBg jobID s).current_foreground_pid = -1) ∧
    (∀ jobID pid during, mapFind s.jobs jobID = some pid →
      0 < pid ∧
      ∃ name, mapFind s.jobNames jobID = some name ∧
        (handleFg jobID during s).trace = s.trace ++
          [Event.cout (fgLine jobID name), Event.setForeground pid,
           Event.kill pid Signal.SIGCONT, Event.waitpid pid] ++
          during.flatMap (handlerEvents pid) ++ [Event.setForeground (-1)]) := by
  have hI : Inv s := runOps_inv ops initialState s Inv.initial h
  refine ⟨hI.owner, ?_, ?_, ?_, ?_, hI.after_listJobs.owner, ?_, ?_⟩
  · intro signum
    exact signalHandler_idle s signum (by rw [hI.owner]; decide)
  · intro args pid execOk during hp
    have h0 : ¬ pid = 0 := by omega
    refine ⟨by simp [waitpid_eq, setForeground], by simp [launchJob, h0, hp],
      (handlerEvents_forward pid hp).1, (handlerEvents_forward pid hp).2,
      _, launchJob_foreground s args pid execOk during hp, rfl, rfl⟩
  · intro name rest pid execOk during hp
    exact ⟨_, launchJob_background_any s name rest pid execOk during hp, hI.owner⟩
  · intro args inBackground ret execOk during hr
    exact ⟨_, launchJob_forkFailed s args inBackground ret execOk during hr, hI.owner⟩
  · intro jobID during
    exact ⟨(hI.after_handleFg jobID during).owner, (hI.after_handleBg jobID).owner⟩
  · intro jobID pid during hj
    have hc : mapCount s.jobs jobID ≠ 0 :=
      (mapCount_ne_zero_iff _ _).2 (mem_keys_of_mapFind _ _ _ hj)
    obtain ⟨pid', name, hj', hn⟩ := hI.find_both jobID hc
    rw [hj] at hj'
    injection hj' with hj'
    subst hj'
    exact ⟨hI.pids _ (mem_of_mapFind _ _ _ hj), name, hn,
      by rw [handleFg_present s hI jobID pid name during hj hn]⟩

/-- C7 on the sample session: a foreground `vim` with child 4300 after two
started jobs, interrupted and then stopped from the terminal while the shell
waits; and `fg 2` with an interrupt during its wait. -/
theorem foreground_owner_lifecycle_witness :
    runOps initialState twoJobsOps = some twoJobsState ∧
    twoJobsState.current_foreground_pid = -1 ∧
    signalHandler Signal.SIGINT twoJobsState = twoJobsState ∧
    (∃ s', launchJob ["vim"] false 4300 true [Signal.SIGINT, Signal.SIGTSTP] twoJobsState =
        Outcome.running s' ∧
      s'.current_foreground_pid = -1 ∧
      s'.trace = twoJobsState.trace ++ [Event.fork 4300, Event.setForeground 4300,
        Event.waitpid 4300, Event.cout interruptNotice, Event.kill 4300 Signal.SIGINT,
        Event.cout stopNotice, Event.kill 4300 Signal.SIGTSTP,
        Event.setForeground (-1)]) ∧
    (handleFg 2 [Signal.SIGINT] twoJobsState).current_foreground_pid = -1 ∧
    (handleFg 2 [Signal.SIGINT] twoJobsState).trace = twoJobsState.trace ++
      [Event.cout "Bringing job [2] to the foreground: make\n", Event.setForeground 4250,
       Event.kill 4250 Signal.SIGCONT, Event.waitpid 4250,
       Event.cout interruptNotice, Event.kill 4250 Signal.SIGINT,
       Event.setForeground (-1)] := by
  have hrun : runOps initialState twoJobsOps = some twoJobsState := by decide
  have h := foreground_owner_lifecycle twoJobsOps twoJobsState hrun
  obtain ⟨h1, h2, h3, _, _, _, h7, h8⟩ := h
  obtain ⟨_, _, _, _, s', hs1, hs2, hs3⟩ :=
    h3 ["vim"] 4300 true [Signal.SIGINT, Signal.SIGTSTP] (by decide)
  obtain ⟨_, name, hn, hf⟩ := h8 2 4250 [Signal.SIGINT] (by decide)
  have hname : name = "make" := by
    have : mapFind twoJobsState.jobNames 2 = some "make" := by decide
    rw [this] at hn
    exact (Option.some.inj hn).symm
  subst hname
  refine ⟨hrun, h1, h2 _, ⟨s', hs1, hs2, ?_⟩, (h7 2 [Signal.SIGINT]).1, ?_⟩
  · rw [hs3]; decide
  · rw [hf]; decide

/-! ## Frame of `launchJob` -/

/-- C8.  In a state `s` reached from the initial state by the operations `ops`,
seen from the shell process.  As long as at most 2147483646 background jobs
have been started in `ops` (so that `job_counter` has not wrapped around), a
background `launchJob` with a non-empty argument list whose `fork` returns
`pid > 0` returns, the key `job_counter` was in neither map, and afterwards
`jobs` is the old `jobs` followed by `(job_counter, pid)`, `jobNames` the old
`jobNames` followed by `(job_counter, args[0])`, the table has one record more,
and `job_counter` is one larger, except at `INT_MAX` = 2147483647, where it
wraps around to -2147483648.  Whatever the number of jobs started, a foreground
`launchJob` with a successful `fork`, and a `launchJob` in either mode whose
`fork` fails (which prints "Fork failed."), return with `jobs`, `jobNames` and
`job_counter` unchanged. -/
theorem launchJob_frame (ops : List Op) (s : ShellState)
    (h : runOps initialState ops = some s)
    (name : String) (rest : List String) (pid : Int) (execOk : Bool)
    (during : List Signal) (hp : 0 < pid)
    (args : List String) (inBackground : Bool) (ret : Int) (hr : ret < 0) :
    (countStarted ops ≤ 2147483646 →
      s.job_counter ≤ 2147483647 ∧
      ∃ s', launchJob (name :: rest) true pid execOk during s = Outcome.running s' ∧
        mapCount s.jobs s.job_counter = 0 ∧ mapCount s.jobNames s.job_counter = 0 ∧
        s'.jobs = s.jobs ++ [(s.job_counter, pid)] ∧
        s'.jobNames = s.jobNames ++ [(s.job_counter, name)] ∧
        jobTable s' = jobTable s ++ [(s.job_counter, name, pid)] ∧
        mapFind s'.jobs s.job_counter = some pid ∧
        mapFind s'.jobNames s.job_counter = some name ∧
        (s.job_counter < 2147483647 → s'.job_counter = s.job_counter + 1) ∧
        (s.job_counter = 2147483647 → s'.job_counter = -2147483648)) ∧
    (∃ s', launchJob args false pid execOk during s = Outcome.running s' ∧
      s'.jobs = s.jobs ∧ s'.jobNames = s.jobNames ∧ s'.job_counter = s.job_counter) ∧
    (∃ s', launchJob args inBackground ret execOk during s = Outcome.running s' ∧
      s'.jobs = s.jobs ∧ s'.jobNames = s.jobNames ∧ s'.job_counter = s.job_counter ∧
      s'.trace = s.trace ++ [Event.fork ret, Event.cerr "Fork failed.\n"]) := by
  have hI : Inv s := runOps_inv ops initialState s Inv.initial h
  refine ⟨?_,
    ⟨_, launchJob_foreground s args pid execOk during hp, rfl, rfl, rfl⟩,
    ⟨_, launchJob_forkFailed s args inBackground ret execOk during hr, rfl, rfl, rfl, rfl⟩⟩
  intro hb
  obtain ⟨hS, hc⟩ := runOps_counter ops s h hb
  have hfresh : s.job_counter ∉ mapKeys s.jobs := fun hk => by
    have := (hS.bound _ hk).2
    omega
  have hfreshN : s.job_counter ∉ mapKeys s.jobNames := by rw [hI.names]; exact hfresh
  have hpos := hS.counter
  refine ⟨hS.limit, _, launchJob_background s hI hS name rest pid execOk during hp,
    (mapCount_eq_zero_iff _ _).2 hfresh, (mapCount_eq_zero_iff _ _).2 hfreshN, rfl, rfl,
    jobTable_append s hI hS name pid _ _ _, mapFind_append_new _ _ _ hfresh,
    mapFind_append_new _ _ _ hfreshN, ?_, ?_⟩
  · intro hlt
    show toInt32 (s.job_counter + 1) = _
    exact toInt32_of_range _ (by omega) (by omega)
  · intro heq
    show toInt32 (s.job_counter + 1) = _
    unfold toInt32
    omega

/-- C8 on the sample session. -/
theorem launchJob_frame_witness :
    runOps initialState sessionOps = some sessionState ∧
    countStarted sessionOps ≤ 2147483646 ∧
    (∃ s', launchJob ["ls", "-l"] true 4260 true [] sessionState = Outcome.running s' ∧
      s'.jobs = [(2, 4250), (3, 4260)] ∧ s'.jobNames = [(2, "make"), (3, "ls")] ∧
      s'.job_counter = 4) ∧
    (∃ s', launchJob ["vim"] false 4260 true [] sessionState = Outcome.running s' ∧
      s'.jobs = [(2, 4250)] ∧ s'.job_counter = 3) ∧
    (∃ s', launchJob ["vim"] true (-1) true [] sessionState = Outcome.running s' ∧
      s'.jobs = [(2, 4250)] ∧ s'.job_counter = 3) := by
  have hn : countStarted sessionOps ≤ 2147483646 := by decide
  obtain ⟨hbg, ⟨b, hb, hb1, _, hb2⟩, ⟨c, hc, hc1, _, hc2, _⟩⟩ :=
    launchJob_frame sessionOps sessionState sessionState_run "ls" ["-l"] 4260 true []
      (by decide) ["vim"] true (-1) (by decide)
  obtain ⟨_, a, ha, _, _, ha1, ha2, _, _, _, ha3, _⟩ := hbg hn
  exact ⟨sessionState_run, hn, ⟨a, ha, ha1, ha2, ha3 (by decide)⟩, ⟨b, hb, hb1, hb2⟩,
    ⟨c, hc, hc1, hc2⟩⟩

/-! ## The command loop -/

/-- The argument vector handed to `launchJob` by lines 55-58. -/
theorem mainStep_launch (input : String) (forkRet : Int) (execOk : Bool)
    (during : List Signal) (s : ShellState)
    (first : String) (rest : List String) (hparse : parseCommand input = first :: rest)
    (h1 : first ≠ "exit") (h2 : first ≠ "jobs") (h3 : first ≠ "fg") (h4 : first ≠ "bg") :
    mainStep input forkRet execOk during s =
      launchJob
        (if (first :: rest).getLast? = some "&" then (first :: rest).dropLast else first :: rest)
        (decide ((first :: rest).getLast? = some "&")) forkRet execOk during
        (emit (Event.cout "shell> ") s) := by
  simp only [mainStep, hparse, h1, h2, h3, h4, if_false]
  by_cases hl : (first :: rest).getLast? = some "&"
  · simp [hl]
  · simp [hl]

theorem mainStep_fg (input : String) (forkRet : Int) (execOk : Bool)
    (during : List Signal) (s : ShellState)
    (rest : List String) (hparse : parseCommand input = "fg" :: rest) :
    mainStep input forkRet execOk during s =
      callWithJobId (fun jobID => handleFg jobID during) ("fg" :: rest)
        (emit (Event.cout "shell> ") s) := by
  simp only [mainStep, hparse]
  rfl

theorem mainStep_bg (input : String) (forkRet : Int) (execOk : Bool)
    (during : List Signal) (s : ShellState)
    (rest : List String) (hparse : parseCommand input = "bg" :: rest) :
    mainStep input forkRet execOk during s =
      callWithJobId handleBg ("bg" :: rest) (emit (Event.cout "shell> ") s) := by
  simp only [mainStep, hparse]
  rfl

theorem launchJob_parent_returns (args : List String) (inBackground : Bool) (pid : Int)
    (execOk : Bool) (during : List Signal) (s : ShellState) (hp : 0 < pid)
    (ha : inBackground = true → args ≠ []) :
    ∃ s', launchJob args inBackground pid execOk during s = Outcome.running s' ∧
      launchJob args inBackground pid (!execOk) during s = Outcome.running s' := by
  have h0 : ¬ pid = 0 := by omega
  cases inBackground with
  | false => exact ⟨_, launchJob_foreground s args pid execOk during hp,
      by rw [launchJob_foreground s args pid _ during hp]⟩
  | true =>
    cases args with
    | nil => exact absurd rfl (ha rfl)
    | cons name rest => simp [launchJob, h0, hp]

theorem stripped_ne_nil (first : String) (rest : List String)
    (h : first :: rest ≠ ["&"]) :
    (if (first :: rest).getLast? = some "&" then (first :: rest).dropLast else first :: rest)
      ≠ [] := by
  by_cases hl : (first :: rest).getLast? = some "&"
  · rw [if_pos hl]
    cases rest with
    | nil =>
      simp only [List.getLast?_singleton, Option.some.injEq] at hl
      subst hl
      exact absurd rfl h
    | cons a more => simp [List.dropLast]
  · rw [if_neg hl]
    simp

theorem callWithJobId_absent (handler : Int → ShellState → ShellState)
    (first word : String) (more : List String) (n : Int) (s : ShellState)
    (hw : stoi word = StoiResult.ok n) :
    callWithJobId handler (first :: word :: more) s = Outcome.running (handler n s) := by
  simp [callWithJobId, hw]

theorem callWithJobId_rejected (handler : Int → ShellState → ShellState)
    (first word : String) (more : List String) (s : ShellState)
    (hw : ∀ n, stoi word ≠ StoiResult.ok n) :
    callWithJobId handler (first :: word :: more) s = Outcome.terminated s := by
  cases hs : stoi word with
  | ok n => exact absurd hs (hw n)
  | invalid_argument => simp [callWithJobId, hs]
  | out_of_range => simp [callWithJobId, hs]

theorem Reachable.step {s s' : ShellState} (h : Reachable s) (ops : List Op)
    (hs : runOps s ops = some s') : Reachable s' := by
  obtain ⟨pre, hpre⟩ := h
  exact ⟨pre ++ ops, by rw [runOps_append, hpre]; exact hs⟩

/-- The states between two iterations of the loop of `main` are reachable: an
iteration that completes is the prompt followed by at most one operation. -/
theorem Reachable.mainStep {s s' : ShellState} (h : Reachable s) (input : String)
    (forkRet : Int) (execOk : Bool) (during : List Signal)
    (hs : NolanShell.mainStep input forkRet execOk during s = Outcome.running s') : Reachable s' := by
  cases hparse : parseCommand input with
  | nil =>
    simp only [NolanShell.mainStep, hparse, Outcome.running.injEq] at hs
    exact h.step [Op.prompt] (by simp [runOps, applyOp, hs])
  | cons first rest =>
    by_cases h1 : first = "exit"
    · simp [NolanShell.mainStep, hparse, h1] at hs
    by_cases h2 : first = "jobs"
    · subst h2
      simp only [NolanShell.mainStep, hparse] at hs
      exact h.step [Op.prompt, Op.jobs] (by
        simp only [runOps, applyOp]
        injection hs with hs
        rw [← hs])
    by_cases h3 : first = "fg"
    · subst h3
      rw [mainStep_fg input forkRet execOk during s rest hparse] at hs
      cases rest with
      | nil => simp [callWithJobId] at hs
      | cons word more =>
        cases hw : stoi word with
        | ok n =>
          rw [callWithJobId_absent (fun jobID => handleFg jobID during) _ word more n _ hw] at hs
          injection hs with hs
          exact h.step [Op.prompt, Op.fg n during] (by simp [runOps, applyOp, hs])
        | invalid_argument => simp [callWithJobId, hw] at hs
        | out_of_range => simp [callWithJobId, hw] at hs
    by_cases h4 : first = "bg"
    · subst h4
      rw [mainStep_bg input forkRet execOk during s rest hparse] at hs
      cases rest with
      | nil => simp [callWithJobId] at hs
      | cons word more =>
        cases hw : stoi word with
        | ok n =>
          rw [callWithJobId_absent handleBg _ word more n _ hw] at hs
          injection hs with hs
          exact h.step [Op.prompt, Op.bg n] (by simp [runOps, applyOp, hs])
        | invalid_argument => simp [callWithJobId, hw] at hs
        | out_of_range => simp [callWithJobId, hw] at hs
    · rw [mainStep_launch input forkRet execOk during s first rest hparse h1 h2 h3 h4] at hs
      exact h.step [Op.prompt, Op.launch _ _ forkRet execOk during] (by
        simp only [runOps, applyOp]
        rw [hs])

/-- With no word after `fg` or `bg`, `args[1]` is read past the end of the
vector. -/
theorem jobId_word_missing :
    mainStep "fg" 4242 true [] initialState = Outcome.undefined ∧
    mainStep "bg" 4242 true [] initialState = Outcome.undefined := by
  exact ⟨by decide, by decide⟩

/-- C9, the claim as stated fails: on the line `fg abc` the iteration does not
complete; `stoi` throws and the process terminates. -/
theorem parse_failure_terminates :
    mainStep "fg abc" 4242 true [] initialState =
      Outcome.terminated (emit (Event.cout "shell> ") initialState) ∧
    ¬ ∃ s', mainStep "fg abc" 4242 true [] initialState = Outcome.running s' := by
  have h : mainStep "fg abc" 4242 true [] initialState =
      Outcome.terminated (emit (Event.cout "shell> ") initialState) := by decide
  refine ⟨h, ?_⟩
  rintro ⟨s', hs⟩
  rw [h] at hs
  cases hs

/-- C9 as amended.  On a line whose words are `first :: rest`:
`fg`/`bg` with an integer id absent from `jobs` prints "Job ID not found." and
the iteration completes with the globals unchanged (JobNotFound); a command
whose `fork` fails prints "Fork failed." and the iteration completes
(ForkFailure); a command other than the single word `&` whose `fork` succeeds
completes the iteration in the shell in the same state whether or not `execvp`
succeeds in the child, and the child in which it fails prints
"Error: command not found" and exits with status 1 (ExecFailure); `fg`/`bg`
followed by a word that `stoi` rejects ends the iteration with the process
terminated (ParseFailure). -/
theorem errors_handled_locally (input : String) (forkRet : Int) (execOk : Bool)
    (during : List Signal) (s : ShellState) (first : String) (rest : List String)
    (hparse : parseCommand input = first :: rest) :
    (∀ word more n, rest = word :: more → stoi word = StoiResult.ok n →
      mapCount s.jobs n = 0 → first = "fg" ∨ first = "bg" →
      mainStep input forkRet execOk during s = Outcome.running
        { s with trace := s.trace ++
            [Event.cout "shell> ", Event.cerr "Job ID not found.\n"] }) ∧
    (first ≠ "exit" → first ≠ "jobs" → first ≠ "fg" → first ≠ "bg" → forkRet < 0 →
      mainStep input forkRet execOk during s = Outcome.running
        { s with trace := s.trace ++
            [Event.cout "shell> ", Event.fork forkRet, Event.cerr "Fork failed.\n"] }) ∧
    (first ≠ "exit" → first ≠ "jobs" → first ≠ "fg" → first ≠ "bg" → 0 < forkRet →
      first :: rest ≠ ["&"] →
      ∃ s', mainStep input forkRet execOk during s = Outcome.running s' ∧
        mainStep input forkRet (!execOk) during s = Outcome.running s') ∧
    (first ≠ "exit" → first ≠ "jobs" → first ≠ "fg" → first ≠ "bg" →
      first :: rest ≠ ["&"] →
      ∃ s', mainStep input 0 false during s = Outcome.exited 1 s' ∧
        s'.trace = s.trace ++
          [Event.cout "shell> ", Event.fork 0, Event.cerr "Error: command not found\n"]) ∧
    (∀ word more, rest = word :: more → (∀ n, stoi word ≠ StoiResult.ok n) →
      first = "fg" ∨ first = "bg" →
      mainStep input forkRet execOk during s =
        Outcome.terminated (emit (Event.cout "shell> ") s)) := by
  refine ⟨?_, ?_, ?_, ?_, ?_⟩
  · intro word more n hr hw hc hf
    subst hr
    rcases hf with hf | hf
    · subst hf
      rw [mainStep_fg input forkRet execOk during s _ hparse,
        callWithJobId_absent (fun jobID => handleFg jobID during) _ word more n _ hw,
        handleFg_absent (emit (Event.cout "shell> ") s) n during hc]
      simp [emit]
    · subst hf
      rw [mainStep_bg input forkRet execOk during s _ hparse,
        callWithJobId_absent handleBg _ word more n _ hw,
        handleBg_absent (emit (Event.cout "shell> ") s) n hc]
      simp [emit]
  · intro h1 h2 h3 h4 hr
    rw [mainStep_launch input forkRet execOk during s first rest hparse h1 h2 h3 h4,
      launchJob_forkFailed _ _ _ _ _ _ hr]
    simp [emit]
  · intro h1 h2 h3 h4 hp hne
    rw [mainStep_launch input forkRet execOk during s first rest hparse h1 h2 h3 h4,
      mainStep_launch input forkRet (!execOk) during s first rest hparse h1 h2 h3 h4]
    exact launchJob_parent_returns _ _ _ _ _ _ hp (fun _ => stripped_ne_nil first rest hne)
  · intro h1 h2 h3 h4 hne
    rw [mainStep_launch input 0 false during s first rest hparse h1 h2 h3 h4]
    have hs := stripped_ne_nil first rest hne
    cases hargs : (if (first :: rest).getLast? = some "&" then (first :: rest).dropLast
        else first :: rest) with
    | nil => exact absurd hargs hs
    | cons a more =>
      exact ⟨emit (Event.cerr "Error: command not found\n")
        (emit (Event.fork 0) (emit (Event.cout "shell> ") s)), by simp [launchJob],
        by simp [emit]⟩
  · intro word more hr hw hf
    subst hr
    rcases hf with hf | hf
    · subst hf
      rw [mainStep_fg input forkRet execOk during s _ hparse,
        callWithJobId_rejected (fun jobID => handleFg jobID during) _ word more _ hw]
    · subst hf
      rw [mainStep_bg input forkRet execOk during s _ hparse,
        callWithJobId_rejected handleBg _ word more _ hw]

/-- C9 as amended, on concrete lines typed at the initial state. -/
theorem errors_handled_locally_witness :
    mainStep "fg 99" 4242 true [] initialState = Outcome.running
      { initialState with trace := initialState.trace ++
          [Event.cout "shell> ", Event.cerr "Job ID not found.\n"] } ∧
    mainStep "ls -l" (-1) true [] initialState = Outcome.running
      { initialState with trace := initialState.trace ++
          [Event.cout "shell> ", Event.fork (-1), Event.cerr "Fork failed.\n"] } ∧
    (∃ s', mainStep "nosuchprogram &" 4242 false [] initialState = Outcome.running s' ∧
      mainStep "nosuchprogram &" 4242 (!false) [] initialState = Outcome.running s') ∧
    (∃ s', mainStep "nosuchprogram &" 0 false [] initialState = Outcome.exited 1 s' ∧
      s'.trace = initialState.trace ++
        [Event.cout "shell> ", Event.fork 0, Event.cerr "Error: command not found\n"]) ∧
    mainStep "bg x1" 4242 true [] initialState =
      Outcome.terminated (emit (Event.cout "shell> ") initialState) := by
  have hx : ∀ n, stoi "x1" ≠ StoiResult.ok n := by
    intro n hn
    have h : stoi "x1" = StoiResult.invalid_argument := by decide
    rw [h] at hn
    cases hn
  exact
    ⟨(errors_handled_locally "fg 99" 4242 true [] initialState "fg" ["99"] (by decide)).1
        "99" [] 99 rfl (by decide) (by decide) (Or.inl rfl),
     (errors_handled_locally "ls -l" (-1) true [] initialState "ls" ["-l"] (by decide)).2.1
        (by decide) (by decide) (by decide) (by decide) (by decide),
     (errors_handled_locally "nosuchprogram &" 4242 false [] initialState "nosuchprogram" ["&"]
        (by decide)).2.2.1 (by decide) (by decide) (by decide) (by decide) (by decide)
        (by decide),
     (errors_handled_locally "nosuchprogram &" 4242 false [] initialState "nosuchprogram" ["&"]
        (by decide)).2.2.2.1 (by decide) (by decide) (by decide) (by decide) (by decide),
     (errors_handled_locally "bg x1" 4242 true [] initialState "bg" ["x1"] (by decide)).2.2.2.2
        "x1" [] rfl hx (Or.inr rfl)⟩

/-- C10, the failing line: the single word `&` is not a built-in, its last word
is `&`, so `launchJob` is called in background mode with the empty argument
vector; with a successful `fork` the shell then reads `args[0]` of an empty
vector, and the child passes a null program name to `execvp`. -/
theorem ampersand_line_empty_args :
    parseCommand "&" = ["&"] ∧
    mainStep "&" 4242 true [] initialState =
      launchJob [] true 4242 true [] (emit (Event.cout "shell> ") initialState) ∧
    mainStep "&" 4242 true [] initialState = Outcome.undefined ∧
    mainStep "&" 0 true [] initialState = Outcome.undefined ∧
    mainStep "  &  " 4242 true [] initialState = Outcome.undefined := by
  refine ⟨by decide, by decide, by decide, by decide, by decide⟩

end NolanShell
